import Mathlib

/-!
# shenzhen-go: the `embed` generator script and the `pin` data model

A shallow embedding of `scripts/embed/embed.go` and `model/pin/pin.go`.

* A Go `byte` is a `Fin 256`; a Go `string` is the list of its bytes.
* A Go `[]byte` is a `Slice`: the elements below its length, and the elements
  of the backing array between its length and its capacity.
* A run-time panic is an explicit outcome.
* Calls into the operating system and into library packages that depend on
  the file system (`os.Create`, `filepath.Glob`, `os.Stat`, `ioutil.ReadFile`,
  `filepath.Rel`, ...) are fields of a `World`.
-/

/-- One Go `byte`. -/
abbrev Byte := Fin 256

/-- A Go `string`: an immutable sequence of bytes. -/
abbrev GoString := List Byte

/-- The bytes of an ASCII literal of the source text. -/
def lit (s : String) : GoString := s.toList.map (fun c => Fin.ofNat c.toNat)

/-- The outcome of running Go code that may panic at run time. -/
inductive Outcome (α : Type) where
  | ok (a : α)
  | panic
  deriving DecidableEq, Repr

deriving instance DecidableEq for Except

namespace Pin

/-- Type `Direction` of pin.go: `type Direction string`. -/
abbrev Direction := GoString

/-- Constant `Input Direction = "in"`. -/
def Input : Direction := lit "in"

/-- Constant `Output Direction = "out"`. -/
def Output : Direction := lit "out"

/-- Method `Direction.Type` of pin.go: a switch over the two constants that
falls through to `return ""`. -/
def Direction.Type (d : Direction) : GoString :=
  if d = Input then lit "<-chan"
  else if d = Output then lit "chan<-"
  else lit ""

/-- Struct `Definition` of pin.go; the field `Type` is written `Typ`, the
former being reserved. -/
structure Definition where
  Name : GoString
  Typ : GoString
  Direction : Direction
  deriving DecidableEq, Repr

/-- A value of type `*Definition`: `none` is the nil pointer, `some d` a
pointer to a `Definition` that no other map entry points to (the decoder
allocates one per key). -/
abbrev DefPtr := Option Definition

/-- Type `Map` of pin.go, `map[string]*Definition`, as its list of key/value
pairs, in the order a `range` loop visits them (Go leaves that order open);
`none` is the nil map. -/
abbrev Map := Option (List (GoString × DefPtr))

/-- The result of `Map.UnmarshalJSON`: the returned error (`none` is a nil
error) or a run-time panic, together with the value of `*m` afterwards. -/
structure UnmarshalResult (ε : Type) where
  ret : Outcome (Option ε)
  m : Map

/-- The loop `for n, p := range m0 { p.Name = n }`: the assignment through a
nil `p` panics; otherwise the pointee's `Name` becomes the key. The result is
the map when the loop stops, and whether it ran to its end (`false`: it
panicked, with the entries visited before renamed and the others as they
were). -/
def fillNames : List (GoString × DefPtr) → List (GoString × DefPtr) × Bool
  | [] => ([], true)
  | (n, none) :: rest => ((n, none) :: rest, false)
  | (n, some p) :: rest =>
    let r := fillNames rest
    ((n, some { p with Name := n }) :: r.1, r.2)

/-- Method `Map.UnmarshalJSON` of pin.go. `unmarshal` stands for
`json.Unmarshal(b, &m0)` with `m0` a fresh nil `map[string]*Definition`: it
gives the error, or the value of `m0` afterwards. `m` is the value of `*m`
before the call. When the loop panics part-way, `*m` already holds `m0`, with
the entries visited so far renamed. -/
def Map.UnmarshalJSON {ε : Type} (unmarshal : GoString → Except ε Map)
    (b : GoString) (m : Map) : UnmarshalResult ε :=
  match unmarshal b with
  | .error err => { ret := .ok (some err), m := m }
  | .ok none => { ret := .ok none, m := none }
  | .ok (some m0) =>
    let r := fillNames m0
    if r.2 then { ret := .ok none, m := some r.1 }
    else { ret := .panic, m := some r.1 }

end Pin

namespace Utf8

/-! Package `unicode/utf8` of the Go standard library, as far as `strconv`
quoting and unquoting use it. It is not part of the repository: `main` reaches
it through the verb `%q`. A `rune` is a natural number here: every rune these
functions are given is a decoded one or one at least `RuneSelf`. -/

/-- Constant `RuneError`, the replacement character. -/
def RuneError : Nat := 0xFFFD

/-- Constant `RuneSelf`: bytes below it stand for themselves. -/
def RuneSelf : Nat := 0x80

/-- Constant `MaxRune`. -/
def MaxRune : Nat := 0x10FFFF

/-- Constant `surrogateMin`. -/
def surrogateMin : Nat := 0xD800

/-- Constant `surrogateMax`. -/
def surrogateMax : Nat := 0xDFFF

/-- Constant `locb`, the lowest continuation byte. -/
def locb : Nat := 0x80

/-- Constant `hicb`, the highest continuation byte. -/
def hicb : Nat := 0xBF

/-- Table `first`: information about the first byte of an encoding. `0xF0`
(`as`) marks ASCII, `0xF1` (`xx`) an invalid byte; otherwise the low three bits
give the size and the high four the index into `acceptRanges`. -/
def first (b : Nat) : Nat :=
  if b < 0x80 then 0xF0
  else if b < 0xC2 then 0xF1
  else if b < 0xE0 then 0x02
  else if b = 0xE0 then 0x13
  else if b < 0xED then 0x03
  else if b = 0xED then 0x23
  else if b < 0xF0 then 0x03
  else if b = 0xF0 then 0x34
  else if b < 0xF4 then 0x04
  else if b = 0xF4 then 0x44
  else 0xF1

/-- Table `acceptRanges`: the accepted range `(lo, hi)` of the second byte. -/
def acceptRanges (i : Nat) : Nat × Nat :=
  match i with
  | 0 => (locb, hicb)
  | 1 => (0xA0, hicb)
  | 2 => (locb, 0x9F)
  | 3 => (0x90, hicb)
  | 4 => (locb, 0x8F)
  | _ => (0, 0)

/-- Function `utf8.DecodeRuneInString`: the first rune of `s` and its width in
bytes; `(RuneError, 0)` for the empty string and `(RuneError, 1)` for an
invalid encoding. For a first byte marked `as` or `xx` the source selects
between the byte and `RuneError` with a mask built from the low bit of the
table entry. -/
def DecodeRuneInString (s : GoString) : Nat × Nat :=
  let n := s.length
  if n < 1 then (RuneError, 0)
  else
    let s0 := (s.getD 0 0).val
    let x := first s0
    if x ≥ 0xF0 then (if x % 2 = 1 then RuneError else s0, 1)
    else
      let sz := x &&& 7
      let accept := acceptRanges (x >>> 4)
      if n < sz then (RuneError, 1)
      else
        let s1 := (s.getD 1 0).val
        if s1 < accept.1 ∨ accept.2 < s1 then (RuneError, 1)
        else if sz ≤ 2 then (((s0 &&& 0x1F) <<< 6) ||| (s1 &&& 0x3F), 2)
        else
          let s2 := (s.getD 2 0).val
          if s2 < locb ∨ hicb < s2 then (RuneError, 1)
          else if sz ≤ 3 then
            ((((s0 &&& 0x0F) <<< 12) ||| ((s1 &&& 0x3F) <<< 6)) ||| (s2 &&& 0x3F), 3)
          else
            let s3 := (s.getD 3 0).val
            if s3 < locb ∨ hicb < s3 then (RuneError, 1)
            else
              (((((s0 &&& 0x07) <<< 18) ||| ((s1 &&& 0x3F) <<< 12)) |||
                ((s2 &&& 0x3F) <<< 6)) ||| (s3 &&& 0x3F), 4)

/-- The conversion `byte(r)` of a non-negative rune: the low eight bits. -/
def byteOf (r : Nat) : Byte := Fin.ofNat r

/-- Function `utf8.EncodeRune`, as the bytes it writes: one to four bytes; a
surrogate or a rune above `MaxRune` is encoded as `RuneError`. -/
def EncodeRune (r : Nat) : GoString :=
  if r ≤ 0x7F then [byteOf r]
  else if r ≤ 0x7FF then
    [byteOf (0xC0 ||| (byteOf (r >>> 6)).val),
     byteOf (0x80 ||| ((byteOf r).val &&& 0x3F))]
  else
    let r3 := if r > MaxRune ∨ (surrogateMin ≤ r ∧ r ≤ surrogateMax) then RuneError else r
    if r > MaxRune ∨ (surrogateMin ≤ r ∧ r ≤ surrogateMax) ∨ r ≤ 0xFFFF then
      [byteOf (0xE0 ||| (byteOf (r3 >>> 12)).val),
       byteOf (0x80 ||| ((byteOf (r3 >>> 6)).val &&& 0x3F)),
       byteOf (0x80 ||| ((byteOf r3).val &&& 0x3F))]
    else
      [byteOf (0xF0 ||| (byteOf (r >>> 18)).val),
       byteOf (0x80 ||| ((byteOf (r >>> 12)).val &&& 0x3F)),
       byteOf (0x80 ||| ((byteOf (r >>> 6)).val &&& 0x3F)),
       byteOf (0x80 ||| ((byteOf r).val &&& 0x3F))]

/-- The loop of `utf8.ValidString`, one rune per step: no position decodes to
an invalid encoding. `fuel` bounds the number of runes. -/
def validLoop : Nat → GoString → Bool
  | 0, s => s.isEmpty
  | fuel + 1, s =>
    if s.isEmpty then true
    else
      let d := DecodeRuneInString s
      if d.1 = RuneError ∧ d.2 = 1 then false
      else validLoop fuel (s.drop d.2)

/-- Function `utf8.ValidString`. -/
def ValidString (s : GoString) : Bool := validLoop s.length s

end Utf8

namespace Strconv

/-! Package `strconv` of the Go standard library, file quote.go: `Quote` (which
`fmt` calls for the verb `%q` on a string operand without flags) and `Unquote`,
which decodes a Go string literal. The transcription follows the releases of
Go of the repository's time; later releases changed details of these
functions. -/

open Utf8

/-- The tables of `strconv` behind `IsPrint` above Latin-1 and behind
`isInGraphicList`; they are not part of this repository. -/
structure Tables where
  isPrintTab : Nat → Bool
  isInGraphicList : Nat → Bool

/-- Function `strconv.IsPrint`: the fast check for Latin-1 is spelled out in
the source; above it the tables decide. -/
def IsPrint (tb : Tables) (r : Nat) : Bool :=
  if r ≤ 0xFF then
    if 0x20 ≤ r ∧ r < 0x7F then true
    else if 0xA1 ≤ r ∧ r ≤ 0xFF then decide (r ≠ 0xAD)
    else false
  else tb.isPrintTab r

/-- Constant `lowerhex`. -/
def lowerhex : GoString := lit "0123456789abcdef"

/-- The indexing `lowerhex[i]`. -/
def hexDigit (i : Nat) : Byte := lowerhex.getD i 0

/-- The byte of the backslash. -/
def backslash : Byte := 0x5c

/-- The byte of the double quote. -/
def dquote : Byte := 0x22

/-- The byte of the single quote. -/
def squote : Byte := 0x27

/-- The byte of the back quote. -/
def backquote : Byte := 0x60

/-- Function `appendEscapedRune`, as the bytes it appends to `buf`. -/
def appendEscapedRune (tb : Tables) (r : Nat) (quote : Byte)
    (ASCIIonly graphicOnly : Bool) : GoString :=
  if r = quote.val ∨ r = backslash.val then [backslash, byteOf r]
  else if ASCIIonly ∧ r < RuneSelf ∧ IsPrint tb r then [byteOf r]
  else if ¬ ASCIIonly ∧ (IsPrint tb r ∨ (graphicOnly ∧ tb.isInGraphicList r)) then
    EncodeRune r
  else if r = 0x07 then lit "\\a"
  else if r = 0x08 then lit "\\b"
  else if r = 0x0c then lit "\\f"
  else if r = 0x0a then lit "\\n"
  else if r = 0x0d then lit "\\r"
  else if r = 0x09 then lit "\\t"
  else if r = 0x0b then lit "\\v"
  else if r < 0x20 then
    lit "\\x" ++ [hexDigit ((byteOf r).val >>> 4), hexDigit ((byteOf r).val &&& 0xF)]
  else
    let r1 := if r > MaxRune then 0xFFFD else r
    if r > MaxRune ∨ r < 0x10000 then
      lit "\\u" ++ [hexDigit ((r1 >>> 12) &&& 0xF), hexDigit ((r1 >>> 8) &&& 0xF),
        hexDigit ((r1 >>> 4) &&& 0xF), hexDigit ((r1 >>> 0) &&& 0xF)]
    else
      lit "\\U" ++ [hexDigit ((r >>> 28) &&& 0xF), hexDigit ((r >>> 24) &&& 0xF),
        hexDigit ((r >>> 20) &&& 0xF), hexDigit ((r >>> 16) &&& 0xF),
        hexDigit ((r >>> 12) &&& 0xF), hexDigit ((r >>> 8) &&& 0xF),
        hexDigit ((r >>> 4) &&& 0xF), hexDigit ((r >>> 0) &&& 0xF)]

/-- One iteration of the loop of `appendQuotedWith` on a non-empty `s`: the
bytes appended and the width consumed. -/
def quoteStep (tb : Tables) (s : GoString) (quote : Byte)
    (ASCIIonly graphicOnly : Bool) : GoString × Nat :=
  let s0 := (s.getD 0 0).val
  let d := if s0 ≥ RuneSelf then DecodeRuneInString s else (s0, 1)
  if d.2 = 1 ∧ d.1 = RuneError then
    (lit "\\x" ++ [hexDigit (s0 >>> 4), hexDigit (s0 &&& 0xF)], d.2)
  else (appendEscapedRune tb d.1 quote ASCIIonly graphicOnly, d.2)

/-- The loop `for width := 0; len(s) > 0; s = s[width:]` of
`appendQuotedWith`, as the bytes it appends; `fuel` bounds the iterations. -/
def quoteLoop (tb : Tables) (quote : Byte) (ASCIIonly graphicOnly : Bool) :
    Nat → GoString → GoString
  | 0, _ => []
  | fuel + 1, s =>
    if s.length > 0 then
      let st := quoteStep tb s quote ASCIIonly graphicOnly
      st.1 ++ quoteLoop tb quote ASCIIonly graphicOnly fuel (s.drop st.2)
    else []

/-- Function `appendQuotedWith`, as the bytes it appends to `buf`. Every
iteration consumes at least one byte, so `len(s)` iterations suffice. -/
def appendQuotedWith (tb : Tables) (s : GoString) (quote : Byte)
    (ASCIIonly graphicOnly : Bool) : GoString :=
  [quote] ++ quoteLoop tb quote ASCIIonly graphicOnly s.length s ++ [quote]

/-- Function `strconv.Quote`: `quoteWith(s, '"', false, false)`. -/
def Quote (tb : Tables) (s : GoString) : GoString :=
  appendQuotedWith tb s dquote false false

/-- The errors of unquoting: `ErrSyntax`; an index out of range, which the
callers below exclude; and the iteration bound of the model. -/
inductive Err where
  | ErrSyntax
  | IndexOutOfRange
  | OutOfFuel
  deriving DecidableEq, Repr

/-- Function `unhex`: the value of a hexadecimal digit. -/
def unhex (b : Byte) : Option Nat :=
  let c := b.val
  if 0x30 ≤ c ∧ c ≤ 0x39 then some (c - 0x30)
  else if 0x61 ≤ c ∧ c ≤ 0x66 then some (c - 0x61 + 10)
  else if 0x41 ≤ c ∧ c ≤ 0x46 then some (c - 0x41 + 10)
  else none

/-- The loop `for j := 0; j < n; j++ { x, ok := unhex(s[j]); ...; v = v<<4 | x }`
of `UnquoteChar` over the `n` digits `ds`. -/
def hexValue : GoString → Nat → Option Nat
  | [], v => some v
  | d :: ds, v =>
    match unhex d with
    | none => none
    | some x => hexValue ds ((v <<< 4) ||| x)

/-- A 32-bit pattern read as an `int32`, the type of a `rune`. The loop above
shifts at most eight digits into `v`, so its `int32` result is the number
accumulated, read this way. -/
def toInt32 (v : Nat) : Int :=
  if v % 2 ^ 32 < 2 ^ 31 then ((v % 2 ^ 32 : Nat) : Int)
  else ((v % 2 ^ 32 : Nat) : Int) - 2 ^ 32

/-- The conversion `byte(c)` of a rune that may be negative: the low eight
bits. -/
def byteOfInt (c : Int) : Byte := Fin.ofNat (c % 256).toNat

/-- The loop over the two further octal digits of `UnquoteChar`. -/
def octValue : GoString → Nat → Option Nat
  | [], v => some v
  | d :: ds, v =>
    if d.val < 0x30 ∨ d.val > 0x37 then none
    else octValue ds ((v <<< 3) ||| (d.val - 0x30))

/-- Function `strconv.UnquoteChar`: the first character or byte of the escaped
string `s`, whether it needs a multi-byte encoding, and the rest of `s`. -/
def UnquoteChar (s : GoString) (quote : Byte) : Except Err (Int × Bool × GoString) :=
  match s with
  | [] => .error .IndexOutOfRange
  | c0 :: rest0 =>
    if c0 = quote ∧ (quote = squote ∨ quote = dquote) then .error .ErrSyntax
    else if c0.val ≥ RuneSelf then
      let d := DecodeRuneInString s
      .ok ((d.1 : Int), true, s.drop d.2)
    else if c0 ≠ backslash then .ok ((c0.val : Int), false, rest0)
    else
      match rest0 with
      | [] => .error .ErrSyntax
      | c :: s2 =>
        if c = 0x61 then .ok (0x07, false, s2)
        else if c = 0x62 then .ok (0x08, false, s2)
        else if c = 0x66 then .ok (0x0c, false, s2)
        else if c = 0x6e then .ok (0x0a, false, s2)
        else if c = 0x72 then .ok (0x0d, false, s2)
        else if c = 0x74 then .ok (0x09, false, s2)
        else if c = 0x76 then .ok (0x0b, false, s2)
        else if c = 0x78 ∨ c = 0x75 ∨ c = 0x55 then
          let n := if c = 0x78 then 2 else if c = 0x75 then 4 else 8
          if s2.length < n then .error .ErrSyntax
          else
            match hexValue (s2.take n) 0 with
            | none => .error .ErrSyntax
            | some v =>
              if c = 0x78 then .ok (toInt32 v, false, s2.drop n)
              else if toInt32 v > (MaxRune : Int) then .error .ErrSyntax
              else .ok (toInt32 v, true, s2.drop n)
        else if 0x30 ≤ c.val ∧ c.val ≤ 0x37 then
          if s2.length < 2 then .error .ErrSyntax
          else
            match octValue (s2.take 2) (c.val - 0x30) with
            | none => .error .ErrSyntax
            | some v =>
              if v > 255 then .error .ErrSyntax
              else .ok ((v : Int), false, s2.drop 2)
        else if c = backslash then .ok ((backslash.val : Int), false, s2)
        else if c = squote ∨ c = dquote then
          if c ≠ quote then .error .ErrSyntax
          else .ok ((c.val : Int), false, s2)
        else .error .ErrSyntax

/-- The loop `for len(s) > 0` of `Unquote`, as the final value of `buf`. In
the branch that calls `utf8.EncodeRune` the rune is at least `RuneSelf`, so
its conversion to a natural number is exact. -/
def unquoteLoop (quote : Byte) : Nat → GoString → GoString → Except Err GoString
  | 0, s, buf => if s.length > 0 then .error .OutOfFuel else .ok buf
  | fuel + 1, s, buf =>
    if s.length > 0 then
      match UnquoteChar s quote with
      | .error e => .error e
      | .ok (c, multibyte, ss) =>
        let buf1 := if c < (RuneSelf : Int) ∨ ¬ multibyte then buf ++ [byteOfInt c]
          else buf ++ EncodeRune c.toNat
        if quote = squote ∧ ss.length ≠ 0 then .error .ErrSyntax
        else unquoteLoop quote fuel ss buf1
    else .ok buf

/-- Function `contains`: whether the byte occurs in the string. -/
def contains (s : GoString) (c : Byte) : Bool := s.elem c

/-- Function `strconv.Unquote`: the string that a quoted Go string literal
(double-quoted, back-quoted, or a single-quoted character) denotes. Every
step of the loop consumes at least one byte, so `len(s)` steps suffice.
Releases of Go differ in the shortcut for a double-quoted string without
escapes: the later ones take it only when `utf8.ValidString(s)` holds, the
earlier ones always; `validated` says which. -/
def Unquote (validated : Bool) (s : GoString) : Except Err GoString :=
  let n := s.length
  if n < 2 then .error .ErrSyntax
  else
    let quote := s.getD 0 0
    if quote ≠ s.getD (n - 1) 0 then .error .ErrSyntax
    else
      let s := (s.take (n - 1)).drop 1
      if quote = backquote then
        if contains s backquote then .error .ErrSyntax
        else if contains s 0x0d then .ok (s.filter (fun b => b ≠ 0x0d))
        else .ok s
      else if quote ≠ dquote ∧ quote ≠ squote then .error .ErrSyntax
      else if contains s 0x0a then .error .ErrSyntax
      else if (¬ contains s backslash ∧ ¬ contains s quote) ∧
          ((quote = dquote ∧ (validated = false ∨ ValidString s)) ∨
           (quote = squote ∧ (DecodeRuneInString s).2 = s.length ∧
             ((DecodeRuneInString s).1 ≠ RuneError ∨ (DecodeRuneInString s).2 ≠ 1))) then
        .ok s
      else unquoteLoop quote s.length s []

end Strconv

namespace Embed

/-- A Go `[]byte`: `data` holds the elements `0 .. len-1`, `spare` the
elements of the backing array from `len` up to the capacity. -/
structure Slice where
  data : List Byte
  spare : List Byte
  deriving DecidableEq, Repr

/-- Builtin `len`. -/
def Slice.len (s : Slice) : Nat := s.data.length

/-- Builtin `cap`. -/
def Slice.cap (s : Slice) : Nat := s.data.length + s.spare.length

/-- The slice expression `s[:hi]`: for a slice operand the upper bound is
checked against the capacity, and a bound above it panics. -/
def Slice.upTo (s : Slice) (hi : Nat) : Outcome Slice :=
  if hi ≤ s.cap then
    .ok { data := (s.data ++ s.spare).take hi, spare := (s.data ++ s.spare).drop hi }
  else .panic

/-- Function `bytes.Equal`: same length and same elements. -/
def bytesEqual (a b : List Byte) : Bool := decide (a = b)

/-- A `time.Time`, as a count of seconds. -/
abbrev Time := Int

/-- Function `gzipContent` of embed.go. `gz content name mtime` stands for the
bytes that `gzip.NewWriterLevel(buf, gzip.BestCompression)`, the two header
assignments, `gw.Write(in)`, `gw.Close()` leave in `buf`, returned by
`buf.Bytes()`; every error of the writer is ignored by the code. -/
def gzipContent (gz : GoString → GoString → Time → Slice)
    (inp : Slice) (name : GoString) (mtime : Time) : Outcome Slice :=
  match inp.upTo 2 with
  | .panic => .panic
  | .ok head =>
    if bytesEqual head.data [0x1f, 0x8b] then .ok inp
    else .ok (gz inp.data name mtime)

/-- Function `filepath.ToSlash`: the path unchanged when the separator is the
slash, else every separator replaced by a slash. The separator is one byte on
every platform of Go (the slash, or the backslash on Windows). -/
def ToSlash (Separator : Byte) (path : GoString) : GoString :=
  if Separator = 0x2f then path
  else path.map (fun c => if c = Separator then 0x2f else c)

/-- Function `filepath.FromSlash`: the path unchanged when the separator is
the slash, else every slash replaced by the separator. -/
def FromSlash (Separator : Byte) (path : GoString) : GoString :=
  if Separator = 0x2f then path
  else path.map (fun c => if c = 0x2f then Separator else c)

/-- What `os.Stat` tells about a file, as far as `main` looks at it. -/
structure FileInfo where
  IsDir : Bool
  ModTime : Time
  deriving DecidableEq, Repr

/-- The operating system and the library calls of `main` whose answers depend
on it. `none` stands for a non-nil error, `false` for a failed call. -/
structure World where
  /-- Constant `filepath.Separator`. -/
  Separator : Byte
  /-- Whether `os.Create(name)` succeeds. -/
  Create : GoString → Bool
  /-- Function `filepath.Join` of two elements. -/
  Join : GoString → GoString → GoString
  /-- Function `filepath.Glob`: the matches, in the order it returns them. -/
  Glob : GoString → Option (List GoString)
  /-- Function `os.Stat`. -/
  Stat : GoString → Option FileInfo
  /-- Function `ioutil.ReadFile`: the slice it returns, capacity included. -/
  ReadFile : GoString → Option Slice
  /-- Function `filepath.Rel base target`. -/
  Rel : GoString → GoString → Option GoString
  /-- Function `filepath.Base`. -/
  Base : GoString → GoString
  /-- The gzip writer of `gzipContent`. -/
  gz : GoString → GoString → Time → Slice
  /-- The tables of `strconv` behind the verb `%q`. -/
  tables : Strconv.Tables
  /-- Whether `w.Flush()` succeeds. -/
  Flush : Bool
  /-- Whether the explicit `o.Close()` succeeds. -/
  Close : Bool

/-- The flags of embed.go after `flag.Parse()`. -/
structure Flags where
  pkg : GoString
  vn : GoString
  outf : GoString
  base : GoString
  verbose : Bool
  gzipit : Bool

/-- What `main` does to the outside, in order. The messages of `vlog` and of
`log.Fatalf` go to the log and are left out. -/
inductive Event where
  /-- The call `flag.Usage()`. -/
  | usage
  /-- The call `os.Create(name)`, which creates or truncates the file. -/
  | create (name : GoString)
  /-- One `fmt.Fprintf` or `fmt.Fprintln` on the buffered writer: its text. -/
  | write (text : GoString)
  /-- The call `w.Flush()`. -/
  | flush
  /-- A call `o.Close()`. -/
  | close
  /-- A call `log.Fatalf`, which ends the process with status 1. -/
  | fatal
  deriving DecidableEq, Repr

/-- How the process ends: `main` returns (status 0), `log.Fatalf` (status 1),
or a run-time panic (status 2). -/
inductive Exit where
  | returned
  | fatal
  | panicked
  deriving DecidableEq, Repr

/-- A run of `main`. -/
structure Run where
  events : List Event
  exit : Exit
  deriving DecidableEq, Repr

/-- The verb `%q` of `fmt` on a string operand, without flags: `fmtQ` calls
`strconv.AppendQuote`. -/
def fmtQ (tb : Strconv.Tables) (s : GoString) : GoString := Strconv.Quote tb s

/-- The text of `fmt.Fprintf(w, "// This file was generated by embed.go. DO NOT
EDIT.\n\npackage %s\n\n", *pkg)`. -/
def headerText (pkg : GoString) : GoString :=
  lit "// This file was generated by embed.go. DO NOT EDIT.\n\npackage " ++ pkg ++ lit "\n\n"

/-- The text of `fmt.Fprintf(w, "var %s = map[string][]byte{\n", *vn)`. -/
def varText (vn : GoString) : GoString :=
  lit "var " ++ vn ++ lit " = map[string][]byte\x7b\n"

/-- The text of `fmt.Fprintf(w, "\t%q: []byte(%q),\n", key, payload)`. -/
def entryText (tb : Strconv.Tables) (e : GoString × GoString) : GoString :=
  lit "\t" ++ fmtQ tb e.1 ++ lit ": []byte(" ++ fmtQ tb e.2 ++ lit "),\n"

/-- The text of `fmt.Fprintln(w, "}")`. -/
def closingText : GoString := lit "\x7d\n"

/-- The body of the loop over the matches `ms` in `main`, for one match `m`:
the two arguments of the `Fprintf` it ends with (the key and the payload), or
`none` when a `continue` skips the match; `gzipContent` may panic. -/
def processFile (w : World) (gzipit : Bool) (base m : GoString) :
    Outcome (Option (GoString × GoString)) :=
  match w.Stat m with
  | none => .ok none
  | some fi =>
    if fi.IsDir then .ok none
    else
      match w.ReadFile m with
      | none => .ok none
      | some i =>
        match w.Rel base m with
        | none => .ok none
        | some r =>
          if gzipit then
            match gzipContent w.gz i (w.Base m) fi.ModTime with
            | .panic => .panic
            | .ok i1 => .ok (some (ToSlash w.Separator r, i1.data))
          else .ok (some (ToSlash w.Separator r, i.data))

/-- The loop `for _, m := range ms`: the entries written, in order, and
whether the loop ran to its end (`false`: a panic stopped it). -/
def processMatches (w : World) (gzipit : Bool) (base : GoString) :
    List GoString → List (GoString × GoString) × Bool
  | [] => ([], true)
  | m :: ms =>
    match processFile w gzipit base m with
    | .panic => ([], false)
    | .ok none => processMatches w gzipit base ms
    | .ok (some e) =>
      let r := processMatches w gzipit base ms
      (e :: r.1, r.2)

/-- The loop `for _, ifs := range flag.Args()`: the entries written, in order,
and how the loop ended (`returned`: it ran to its end; `fatal`: a pattern was
invalid; `panicked`). -/
def processArgs (w : World) (gzipit : Bool) (base : GoString) :
    List GoString → List (GoString × GoString) × Exit
  | [] => ([], .returned)
  | ifs :: rest =>
    match w.Glob (w.Join base (FromSlash w.Separator ifs)) with
    | none => ([], .fatal)
    | some ms =>
      let r := processMatches w gzipit base ms
      if r.2 then
        let r2 := processArgs w gzipit base rest
        (r.1 ++ r2.1, r2.2)
      else (r.1, .panicked)

/-- Function `main` of embed.go, from after `flag.Parse()`; `args` is
`flag.Args()`. The deferred `o.Close()` runs when `main` returns or panics,
not when `log.Fatalf` ends the process. -/
def main (w : World) (f : Flags) (args : List GoString) : Run :=
  if f.pkg = [] ∨ f.vn = [] ∨ f.outf = [] ∨ args.length = 0 then
    { events := [.usage], exit := .returned }
  else
    let base := FromSlash w.Separator f.base
    if ¬ w.Create f.outf then
      { events := [.create f.outf, .fatal], exit := .fatal }
    else
      let head := [Event.create f.outf, .write (headerText f.pkg), .write (varText f.vn)]
      let r := processArgs w f.gzipit base args
      let body := r.1.map (fun e => Event.write (entryText w.tables e))
      match r.2 with
      | .fatal => { events := head ++ body ++ [.fatal], exit := .fatal }
      | .panicked => { events := head ++ body ++ [.close], exit := .panicked }
      | .returned =>
        let done := head ++ body ++ [.write closingText, .flush]
        if ¬ w.Flush then { events := done ++ [.fatal], exit := .fatal }
        else if ¬ w.Close then { events := done ++ [.close, .fatal], exit := .fatal }
        else { events := done ++ [.close, .close], exit := .returned }

/-- The text a run hands to the buffered writer: its writes, concatenated. -/
def Run.text (r : Run) : GoString :=
  r.events.flatMap (fun e => match e with
    | .write t => t
    | _ => [])

/-- An example world on a platform whose separator is the slash. Under `/base`
there are the files `a/1.txt`, `a/2.txt`, `b/1.txt`, `data.txt`, `sub/dir/a.txt`
and the directory `data`; the content of a file is its own path, read into a
slice with 512 bytes of spare capacity, as `ioutil.ReadFile` allocates them.
The pattern `/base/[` is malformed. -/
def exampleWorld : World where
  Separator := 0x2f
  Create := fun _ => true
  Join := fun a b => a ++ lit "/" ++ b
  Glob := fun p =>
    if p = lit "/base/a/*.txt" then some [lit "/base/a/1.txt", lit "/base/a/2.txt"]
    else if p = lit "/base/b/*.txt" then some [lit "/base/b/1.txt"]
    else if p = lit "/base/*/1.txt" then some [lit "/base/a/1.txt", lit "/base/b/1.txt"]
    else if p = lit "/base/data*" then some [lit "/base/data", lit "/base/data.txt"]
    else if p = lit "/base/sub/dir/*" then some [lit "/base/sub/dir/a.txt"]
    else if p = lit "/base/[" then none
    else some []
  Stat := fun p => if p = lit "/base/data" then some ⟨true, 0⟩ else some ⟨false, 0⟩
  ReadFile := fun p =>
    if p = lit "/base/data" then none else some ⟨p, List.replicate 512 0⟩
  Rel := fun base m =>
    if (base ++ lit "/").isPrefixOf m then some (m.drop (base.length + 1)) else none
  Base := fun m => m
  gz := fun c _ _ => ⟨0x1f :: 0x8b :: c, []⟩
  tables := ⟨fun _ => false, fun _ => false⟩
  Flush := true
  Close := true

/-- Example flags: `-pkg p -var v -out out.go -base /base -gzip`. -/
def exampleGzipFlags : Flags where
  pkg := lit "p"
  vn := lit "v"
  outf := lit "out.go"
  base := lit "/base"
  verbose := false
  gzipit := true

/-- Example flags: `-pkg p -var v -out out.go -base /base`. -/
def exampleFlags : Flags where
  pkg := lit "p"
  vn := lit "v"
  outf := lit "out.go"
  base := lit "/base"
  verbose := false
  gzipit := false

end Embed

namespace Utf8

/-! ## UTF-8: bit arithmetic, decoding and encoding

The masks and shifts of `unicode/utf8` as arithmetic, the value of
`DecodeRuneInString` on each shape of input, and the bytes of `EncodeRune`. -/

theorem and_07 (x : Nat) : x &&& 0x07 = x % 8 := Nat.and_pow_two_sub_one_eq_mod x 3
theorem and_0F (x : Nat) : x &&& 0x0F = x % 16 := Nat.and_pow_two_sub_one_eq_mod x 4
theorem and_1F (x : Nat) : x &&& 0x1F = x % 32 := Nat.and_pow_two_sub_one_eq_mod x 5
theorem and_3F (x : Nat) : x &&& 0x3F = x % 64 := Nat.and_pow_two_sub_one_eq_mod x 6

/-- A bitwise or of two numbers with no common bit is their sum. -/
theorem or_eq_add (x y k : Nat) (hx : x % 2 ^ k = 0) (hy : y < 2 ^ k) : x ||| y = x + y := by
  obtain ⟨a, rfl⟩ : 2 ^ k ∣ x := Nat.dvd_of_mod_eq_zero hx
  exact (Nat.mul_add_lt_is_or hy a).symm

theorem first_two (b : Nat) (h1 : 0xC2 ≤ b) (h2 : b ≤ 0xDF) : first b = 0x02 := by
  unfold first
  split_ifs <;> omega

theorem first_three (b : Nat) (h1 : 0xE0 ≤ b) (h2 : b ≤ 0xEF) :
    (b = 0xE0 ∧ first b = 0x13) ∨ (b = 0xED ∧ first b = 0x23) ∨
    (b ≠ 0xE0 ∧ b ≠ 0xED ∧ first b = 0x03) := by
  unfold first
  split_ifs <;> omega

theorem first_four (b : Nat) (h1 : 0xF0 ≤ b) (h2 : b ≤ 0xF4) :
    (b = 0xF0 ∧ first b = 0x34) ∨ (b = 0xF4 ∧ first b = 0x44) ∨
    (b ≠ 0xF0 ∧ b ≠ 0xF4 ∧ first b = 0x04) := by
  unfold first
  split_ifs <;> omega

theorem first_ascii (b : Nat) (h : b < 0x80) : first b = 0xF0 := by
  unfold first
  rw [if_pos h]

theorem first_invalid (b : Nat) (h : (0x80 ≤ b ∧ b < 0xC2) ∨ 0xF4 < b) : first b = 0xF1 := by
  unfold first
  split_ifs <;> omega

theorem bits2 (a b : Nat) :
    ((a &&& 0x1F) <<< 6) ||| (b &&& 0x3F) = (a % 32) * 64 + b % 64 := by
  rw [and_1F, and_3F, Nat.shiftLeft_eq, or_eq_add _ _ 6 (by omega) (by omega)]

theorem bits3 (a b c : Nat) :
    (((a &&& 0x0F) <<< 12) ||| ((b &&& 0x3F) <<< 6)) ||| (c &&& 0x3F) =
      (a % 16) * 4096 + (b % 64) * 64 + c % 64 := by
  rw [and_0F, and_3F, and_3F, Nat.shiftLeft_eq, Nat.shiftLeft_eq,
    or_eq_add (a % 16 * 2 ^ 12) (b % 64 * 2 ^ 6) 12 (by omega) (by omega),
    or_eq_add _ (c % 64) 6 (by omega) (by omega)]

theorem bits4 (a b c d : Nat) :
    ((((a &&& 0x07) <<< 18) ||| ((b &&& 0x3F) <<< 12)) ||| ((c &&& 0x3F) <<< 6)) |||
      (d &&& 0x3F) = (a % 8) * 262144 + (b % 64) * 4096 + (c % 64) * 64 + d % 64 := by
  rw [and_07, and_3F, and_3F, and_3F, Nat.shiftLeft_eq, Nat.shiftLeft_eq, Nat.shiftLeft_eq,
    or_eq_add (a % 8 * 2 ^ 18) (b % 64 * 2 ^ 12) 18 (by omega) (by omega),
    or_eq_add _ (c % 64 * 2 ^ 6) 12 (by omega) (by omega),
    or_eq_add _ (d % 64) 6 (by omega) (by omega)]

theorem decode2 (b0 b1 : Byte) (t : GoString) (h1 : 0xC2 ≤ b0.val) (h2 : b0.val ≤ 0xDF)
    (h3 : 0x80 ≤ b1.val) (h4 : b1.val ≤ 0xBF) :
    DecodeRuneInString (b0 :: b1 :: t) = ((b0.val % 32) * 64 + b1.val % 64, 2) := by
  have hf := first_two b0 h1 h2
  have e1 : (2 : Nat) &&& 7 = 2 := by decide
  have e2 : (2 : Nat) >>> 4 = 0 := by decide
  simp only [DecodeRuneInString, List.getD_cons_zero, List.getD_cons_succ, hf, List.length_cons,
    e1, e2, acceptRanges, locb, hicb, bits2]
  rw [if_neg (by omega), if_neg (by omega), if_neg (by omega), if_neg (by omega),
    if_pos (by omega)]

theorem decode3 (b0 b1 b2 : Byte) (t : GoString) (h1 : 0xE0 ≤ b0.val) (h2 : b0.val ≤ 0xEF)
    (h3 : 0x80 ≤ b1.val) (h4 : b1.val ≤ 0xBF) (h5 : b0.val = 0xE0 → 0xA0 ≤ b1.val)
    (h6 : b0.val = 0xED → b1.val ≤ 0x9F) (h7 : 0x80 ≤ b2.val) (h8 : b2.val ≤ 0xBF) :
    DecodeRuneInString (b0 :: b1 :: b2 :: t) =
      ((b0.val % 16) * 4096 + (b1.val % 64) * 64 + b2.val % 64, 3) := by
  have e1 : (0x13 : Nat) &&& 7 = 3 := by decide
  have e2 : (0x13 : Nat) >>> 4 = 1 := by decide
  have e3 : (0x23 : Nat) &&& 7 = 3 := by decide
  have e4 : (0x23 : Nat) >>> 4 = 2 := by decide
  have e5 : (0x03 : Nat) &&& 7 = 3 := by decide
  have e6 : (0x03 : Nat) >>> 4 = 0 := by decide
  rcases first_three b0 h1 h2 with ⟨_, hf⟩ | ⟨_, hf⟩ | ⟨_, _, hf⟩ <;>
  · simp only [DecodeRuneInString, List.getD_cons_zero, List.getD_cons_succ, hf, List.length_cons,
      e1, e2, e3, e4, e5, e6, acceptRanges, locb, hicb, bits3]
    rw [if_neg (by omega), if_neg (by omega), if_neg (by omega), if_neg (by omega),
      if_neg (by omega), if_neg (by omega), if_pos (by omega)]

theorem decode4 (b0 b1 b2 b3 : Byte) (t : GoString) (h1 : 0xF0 ≤ b0.val) (h2 : b0.val ≤ 0xF4)
    (h3 : 0x80 ≤ b1.val) (h4 : b1.val ≤ 0xBF) (h5 : b0.val = 0xF0 → 0x90 ≤ b1.val)
    (h6 : b0.val = 0xF4 → b1.val ≤ 0x8F) (h7 : 0x80 ≤ b2.val) (h8 : b2.val ≤ 0xBF)
    (h9 : 0x80 ≤ b3.val) (h10 : b3.val ≤ 0xBF) :
    DecodeRuneInString (b0 :: b1 :: b2 :: b3 :: t) =
      ((b0.val % 8) * 262144 + (b1.val % 64) * 4096 + (b2.val % 64) * 64 + b3.val % 64, 4) := by
  have e1 : (0x34 : Nat) &&& 7 = 4 := by decide
  have e2 : (0x34 : Nat) >>> 4 = 3 := by decide
  have e3 : (0x44 : Nat) &&& 7 = 4 := by decide
  have e4 : (0x44 : Nat) >>> 4 = 4 := by decide
  have e5 : (0x04 : Nat) &&& 7 = 4 := by decide
  have e6 : (0x04 : Nat) >>> 4 = 0 := by decide
  rcases first_four b0 h1 h2 with ⟨_, hf⟩ | ⟨_, hf⟩ | ⟨_, _, hf⟩ <;>
  · simp only [DecodeRuneInString, List.getD_cons_zero, List.getD_cons_succ, hf, List.length_cons,
      e1, e2, e3, e4, e5, e6, acceptRanges, locb, hicb, bits4]
    rw [if_neg (by omega), if_neg (by omega), if_neg (by omega), if_neg (by omega),
      if_neg (by omega), if_neg (by omega), if_neg (by omega), if_neg (by omega)]


theorem byteOf_val (r : Nat) : (byteOf r).val = r % 256 := rfl

theorem byteOf_eq (r : Nat) (b : Byte) (h : r % 256 = b.val) : byteOf r = b :=
  Fin.ext (by rw [byteOf_val, h])

theorem decode_ascii (b0 : Byte) (t : GoString) (h : b0.val < 0x80) :
    DecodeRuneInString (b0 :: t) = (b0.val, 1) := by
  have hf := first_ascii b0 h
  simp only [DecodeRuneInString, List.getD_cons_zero, hf, List.length_cons]
  rw [if_neg (by omega), if_pos (by omega), if_neg (by omega)]

theorem decode_invalid (b0 : Byte) (t : GoString)
    (h : (0x80 ≤ b0.val ∧ b0.val < 0xC2) ∨ 0xF4 < b0.val) :
    DecodeRuneInString (b0 :: t) = (RuneError, 1) := by
  have hf := first_invalid b0 h
  simp only [DecodeRuneInString, List.getD_cons_zero, hf, List.length_cons]
  rw [if_neg (by omega), if_pos (by omega)]
  simp

theorem e02a : (0x02 : Nat) &&& 7 = 2 := by decide
theorem e02b : (0x02 : Nat) >>> 4 = 0 := by decide
theorem e13a : (0x13 : Nat) &&& 7 = 3 := by decide
theorem e13b : (0x13 : Nat) >>> 4 = 1 := by decide
theorem e23a : (0x23 : Nat) &&& 7 = 3 := by decide
theorem e23b : (0x23 : Nat) >>> 4 = 2 := by decide
theorem e03a : (0x03 : Nat) &&& 7 = 3 := by decide
theorem e03b : (0x03 : Nat) >>> 4 = 0 := by decide
theorem e34a : (0x34 : Nat) &&& 7 = 4 := by decide
theorem e34b : (0x34 : Nat) >>> 4 = 3 := by decide
theorem e44a : (0x44 : Nat) &&& 7 = 4 := by decide
theorem e44b : (0x44 : Nat) >>> 4 = 4 := by decide
theorem e04a : (0x04 : Nat) &&& 7 = 4 := by decide
theorem e04b : (0x04 : Nat) >>> 4 = 0 := by decide

/-- A leading byte of a multi-byte encoding whose continuation is missing or
out of range decodes to `(RuneError, 1)`. -/
theorem decode2_bad (b0 : Byte) (t : GoString) (h1 : 0xC2 ≤ b0.val) (h2 : b0.val ≤ 0xDF)
    (hbad : ∀ b1 t1, t = b1 :: t1 → ¬ (0x80 ≤ b1.val ∧ b1.val ≤ 0xBF)) :
    DecodeRuneInString (b0 :: t) = (RuneError, 1) := by
  have hf := first_two b0 h1 h2
  cases t with
  | nil =>
    simp only [DecodeRuneInString, List.getD_cons_zero, hf, List.length_cons, List.length_nil, e02a]
    rw [if_neg (by omega), if_neg (by omega), if_pos (by omega)]
  | cons b1 t1 =>
    have hb := hbad b1 t1 rfl
    simp only [DecodeRuneInString, List.getD_cons_zero, List.getD_cons_succ, hf,
      List.length_cons, e02a, e02b, acceptRanges, locb, hicb]
    rw [if_neg (by omega), if_neg (by omega), if_neg (by omega), if_pos (by omega)]

set_option maxHeartbeats 1000000 in
theorem decode3_bad (b0 : Byte) (t : GoString) (h1 : 0xE0 ≤ b0.val) (h2 : b0.val ≤ 0xEF)
    (hbad : ∀ b1 b2 t2, t = b1 :: b2 :: t2 →
      ¬ (0x80 ≤ b1.val ∧ b1.val ≤ 0xBF ∧ (b0.val = 0xE0 → 0xA0 ≤ b1.val) ∧
        (b0.val = 0xED → b1.val ≤ 0x9F) ∧ 0x80 ≤ b2.val ∧ b2.val ≤ 0xBF)) :
    DecodeRuneInString (b0 :: t) = (RuneError, 1) := by
  match t with
  | [] =>
    rcases first_three b0 h1 h2 with ⟨_, hf⟩ | ⟨_, hf⟩ | ⟨_, _, hf⟩ <;>
    · simp only [DecodeRuneInString, List.getD_cons_zero, hf, List.length_cons, List.length_nil,
        e13a, e23a, e03a]
      rw [if_neg (by omega), if_neg (by omega), if_pos (by omega)]
  | [b1] =>
    rcases first_three b0 h1 h2 with ⟨_, hf⟩ | ⟨_, hf⟩ | ⟨_, _, hf⟩ <;>
    · simp only [DecodeRuneInString, List.getD_cons_zero, hf, List.length_cons, List.length_nil,
        e13a, e23a, e03a]
      rw [if_neg (by omega), if_neg (by omega), if_pos (by omega)]
  | b1 :: b2 :: t2 =>
    have hb := hbad b1 b2 t2 rfl
    rcases first_three b0 h1 h2 with ⟨_, hf⟩ | ⟨_, hf⟩ | ⟨_, _, hf⟩ <;>
    · simp only [DecodeRuneInString, List.getD_cons_zero, List.getD_cons_succ, hf,
        List.length_cons, e13a, e13b, e23a, e23b, e03a, e03b, acceptRanges, locb, hicb, bits3]
      split_ifs <;> first | (exfalso; omega) | rfl

set_option maxHeartbeats 1000000 in
theorem decode4_bad (b0 : Byte) (t : GoString) (h1 : 0xF0 ≤ b0.val) (h2 : b0.val ≤ 0xF4)
    (hbad : ∀ b1 b2 b3 t3, t = b1 :: b2 :: b3 :: t3 →
      ¬ (0x80 ≤ b1.val ∧ b1.val ≤ 0xBF ∧ (b0.val = 0xF0 → 0x90 ≤ b1.val) ∧
        (b0.val = 0xF4 → b1.val ≤ 0x8F) ∧ 0x80 ≤ b2.val ∧ b2.val ≤ 0xBF ∧
        0x80 ≤ b3.val ∧ b3.val ≤ 0xBF)) :
    DecodeRuneInString (b0 :: t) = (RuneError, 1) := by
  match t with
  | [] =>
    rcases first_four b0 h1 h2 with ⟨_, hf⟩ | ⟨_, hf⟩ | ⟨_, _, hf⟩ <;>
    · simp only [DecodeRuneInString, List.getD_cons_zero, hf, List.length_cons, List.length_nil,
        e34a, e44a, e04a]
      rw [if_neg (by omega), if_neg (by omega), if_pos (by omega)]
  | [b1] =>
    rcases first_four b0 h1 h2 with ⟨_, hf⟩ | ⟨_, hf⟩ | ⟨_, _, hf⟩ <;>
    · simp only [DecodeRuneInString, List.getD_cons_zero, hf, List.length_cons, List.length_nil,
        e34a, e44a, e04a]
      rw [if_neg (by omega), if_neg (by omega), if_pos (by omega)]
  | [b1, b2] =>
    rcases first_four b0 h1 h2 with ⟨_, hf⟩ | ⟨_, hf⟩ | ⟨_, _, hf⟩ <;>
    · simp only [DecodeRuneInString, List.getD_cons_zero, hf, List.length_cons, List.length_nil,
        e34a, e44a, e04a]
      rw [if_neg (by omega), if_neg (by omega), if_pos (by omega)]
  | b1 :: b2 :: b3 :: t3 =>
    have hb := hbad b1 b2 b3 t3 rfl
    rcases first_four b0 h1 h2 with ⟨_, hf⟩ | ⟨_, hf⟩ | ⟨_, _, hf⟩ <;>
    · simp only [DecodeRuneInString, List.getD_cons_zero, List.getD_cons_succ, hf,
        List.length_cons, e34a, e34b, e44a, e44b, e04a, e04b, acceptRanges, locb, hicb, bits4]
      split_ifs <;> first | (exfalso; omega) | rfl

theorem shr6 (r : Nat) : r >>> 6 = r / 64 := Nat.shiftRight_eq_div_pow r 6
theorem shr12 (r : Nat) : r >>> 12 = r / 4096 := Nat.shiftRight_eq_div_pow r 12
theorem shr18 (r : Nat) : r >>> 18 = r / 262144 := Nat.shiftRight_eq_div_pow r 18

theorem or_C0 (x : Nat) (h : x < 32) : 0xC0 ||| x = 0xC0 + x :=
  or_eq_add 0xC0 x 5 (by decide) h
theorem or_E0 (x : Nat) (h : x < 16) : 0xE0 ||| x = 0xE0 + x :=
  or_eq_add 0xE0 x 4 (by decide) h
theorem or_F0 (x : Nat) (h : x < 8) : 0xF0 ||| x = 0xF0 + x :=
  or_eq_add 0xF0 x 3 (by decide) h
theorem or_80 (x : Nat) : 0x80 ||| (x &&& 0x3F) = 0x80 + x % 64 := by
  rw [and_3F]
  exact or_eq_add 0x80 (x % 64) 6 (by decide) (by omega)

theorem mod256_64 (x : Nat) : x % 256 % 64 = x % 64 := by omega

theorem encode1 (r : Nat) (h : r ≤ 0x7F) : EncodeRune r = [byteOf r] := by
  simp only [EncodeRune]
  rw [if_pos h]

theorem encode2 (r : Nat) (h1 : 0x80 ≤ r) (h2 : r ≤ 0x7FF) :
    EncodeRune r = [byteOf (0xC0 + r / 64), byteOf (0x80 + r % 64)] := by
  simp only [EncodeRune, byteOf_val, shr6, or_80, mod256_64]
  rw [if_neg (by omega), if_pos h2, or_C0 _ (by omega), Nat.mod_eq_of_lt (by omega)]

theorem encode3 (r : Nat) (h1 : 0x800 ≤ r) (h2 : r ≤ 0xFFFF)
    (h3 : ¬ (surrogateMin ≤ r ∧ r ≤ surrogateMax)) :
    EncodeRune r =
      [byteOf (0xE0 + r / 4096), byteOf (0x80 + r / 64 % 64), byteOf (0x80 + r % 64)] := by
  have hm : ¬ (r > MaxRune ∨ (surrogateMin ≤ r ∧ r ≤ surrogateMax)) := by
    simp only [MaxRune]; omega
  simp only [EncodeRune, byteOf_val, shr6, shr12, or_80, mod256_64]
  rw [if_neg (by omega), if_neg (by omega), if_neg hm, if_pos (by omega), or_E0 _ (by omega),
    Nat.mod_eq_of_lt (by omega)]

theorem encode4 (r : Nat) (h1 : 0x10000 ≤ r) (h2 : r ≤ 0x10FFFF) :
    EncodeRune r =
      [byteOf (0xF0 + r / 262144), byteOf (0x80 + r / 4096 % 64), byteOf (0x80 + r / 64 % 64),
        byteOf (0x80 + r % 64)] := by
  have hm : ¬ (r > MaxRune ∨ (surrogateMin ≤ r ∧ r ≤ surrogateMax) ∨ r ≤ 0xFFFF) := by
    simp only [MaxRune, surrogateMin, surrogateMax]; omega
  simp only [EncodeRune, byteOf_val, shr6, shr12, shr18, or_80, mod256_64]
  rw [if_neg (by omega), if_neg (by omega), if_neg hm, or_F0 _ (by omega),
    Nat.mod_eq_of_lt (by omega)]

end Utf8

namespace Utf8

/-! ## UTF-8: decoding and encoding are inverse on valid encodings -/

/-- What `DecodeRuneInString` gives on a string whose first byte is not ASCII:
the invalid-encoding result, or a rune of two to four bytes that `EncodeRune`
maps back to exactly the bytes consumed, whatever follows them. -/
theorem decode_multi (b0 : Byte) (t : GoString) (h0 : 0x80 ≤ b0.val) :
    DecodeRuneInString (b0 :: t) = (RuneError, 1) ∨
    (2 ≤ (DecodeRuneInString (b0 :: t)).2 ∧
      (DecodeRuneInString (b0 :: t)).2 ≤ (b0 :: t).length ∧
      0x80 ≤ (DecodeRuneInString (b0 :: t)).1 ∧
      (DecodeRuneInString (b0 :: t)).1 ≤ MaxRune ∧
      EncodeRune (DecodeRuneInString (b0 :: t)).1 =
        (b0 :: t).take (DecodeRuneInString (b0 :: t)).2 ∧
      (∀ b ∈ (b0 :: t).take (DecodeRuneInString (b0 :: t)).2, 0x80 ≤ b.val) ∧
      ∀ rest, DecodeRuneInString ((b0 :: t).take (DecodeRuneInString (b0 :: t)).2 ++ rest) =
        DecodeRuneInString (b0 :: t)) := by
  have hb0 := b0.isLt
  by_cases hinv : (0x80 ≤ b0.val ∧ b0.val < 0xC2) ∨ 0xF4 < b0.val
  · exact Or.inl (decode_invalid b0 t hinv)
  by_cases h2 : b0.val ≤ 0xDF
  · -- two bytes
    by_cases hg : ∃ b1 t1, t = b1 :: t1 ∧ 0x80 ≤ b1.val ∧ b1.val ≤ 0xBF
    · obtain ⟨b1, t1, rfl, hb1, hb1'⟩ := hg
      right
      have hd := decode2 b0 b1 t1 (by omega) h2 hb1 hb1'
      have he := encode2 ((b0.val % 32) * 64 + b1.val % 64) (by omega) (by omega)
      rw [hd]
      refine ⟨by simp, by simp, by simp only; omega, by simp only [MaxRune]; omega, ?_, ?_, ?_⟩
      · simp only [he, List.take_succ_cons, List.take_zero]
        rw [byteOf_eq _ b0 (by omega), byteOf_eq _ b1 (by omega)]
      · intro b hb
        simp only [List.take_succ_cons, List.take_zero, List.mem_cons, List.mem_nil_iff,
          or_false] at hb
        rcases hb with rfl | rfl <;> omega
      · intro rest
        simp only [List.take_succ_cons, List.take_zero, List.cons_append, List.nil_append]
        exact decode2 b0 b1 rest (by omega) h2 hb1 hb1'
    · left
      apply decode2_bad b0 t (by omega) h2
      intro b1 t1 ht hc
      exact hg ⟨b1, t1, ht, hc⟩
  by_cases h3 : b0.val ≤ 0xEF
  · by_cases hg : ∃ b1 b2 t2, t = b1 :: b2 :: t2 ∧ 0x80 ≤ b1.val ∧ b1.val ≤ 0xBF ∧
        (b0.val = 0xE0 → 0xA0 ≤ b1.val) ∧ (b0.val = 0xED → b1.val ≤ 0x9F) ∧
        0x80 ≤ b2.val ∧ b2.val ≤ 0xBF
    · obtain ⟨b1, b2, t2, rfl, c1, c2, c3, c4, c5, c6⟩ := hg
      right
      have hd := decode3 b0 b1 b2 t2 (by omega) h3 c1 c2 c3 c4 c5 c6
      have hlo : 0x800 ≤ (b0.val % 16) * 4096 + (b1.val % 64) * 64 + b2.val % 64 := by
        by_cases hE0 : b0.val = 0xE0
        · have := c3 hE0; omega
        · omega
      have hsur : ¬ (surrogateMin ≤ (b0.val % 16) * 4096 + (b1.val % 64) * 64 + b2.val % 64 ∧
          (b0.val % 16) * 4096 + (b1.val % 64) * 64 + b2.val % 64 ≤ surrogateMax) := by
        simp only [surrogateMin, surrogateMax]
        by_cases hED : b0.val = 0xED
        · have := c4 hED; omega
        · omega
      have he := encode3 ((b0.val % 16) * 4096 + (b1.val % 64) * 64 + b2.val % 64) hlo
        (by omega) hsur
      rw [hd]
      refine ⟨by simp, by simp, by simp only; omega, by simp only [MaxRune]; omega, ?_, ?_, ?_⟩
      · simp only [he, List.take_succ_cons, List.take_zero]
        rw [byteOf_eq _ b0 (by omega), byteOf_eq _ b1 (by omega), byteOf_eq _ b2 (by omega)]
      · intro b hb
        simp only [List.take_succ_cons, List.take_zero, List.mem_cons, List.mem_nil_iff,
          or_false] at hb
        rcases hb with rfl | rfl | rfl <;> omega
      · intro rest
        simp only [List.take_succ_cons, List.take_zero, List.cons_append, List.nil_append]
        exact decode3 b0 b1 b2 rest (by omega) h3 c1 c2 c3 c4 c5 c6
    · left
      apply decode3_bad b0 t (by omega) h3
      intro b1 b2 t2 ht hc
      exact hg ⟨b1, b2, t2, ht, hc⟩
  · by_cases hg : ∃ b1 b2 b3 t3, t = b1 :: b2 :: b3 :: t3 ∧ 0x80 ≤ b1.val ∧ b1.val ≤ 0xBF ∧
        (b0.val = 0xF0 → 0x90 ≤ b1.val) ∧ (b0.val = 0xF4 → b1.val ≤ 0x8F) ∧
        0x80 ≤ b2.val ∧ b2.val ≤ 0xBF ∧ 0x80 ≤ b3.val ∧ b3.val ≤ 0xBF
    · obtain ⟨b1, b2, b3, t3, rfl, c1, c2, c3, c4, c5, c6, c7, c8⟩ := hg
      right
      have hd := decode4 b0 b1 b2 b3 t3 (by omega) (by omega) c1 c2 c3 c4 c5 c6 c7 c8
      have hlo : 0x10000 ≤ (b0.val % 8) * 262144 + (b1.val % 64) * 4096 + (b2.val % 64) * 64 +
          b3.val % 64 := by
        by_cases hF0 : b0.val = 0xF0
        · have := c3 hF0; omega
        · omega
      have hhi : (b0.val % 8) * 262144 + (b1.val % 64) * 4096 + (b2.val % 64) * 64 +
          b3.val % 64 ≤ 0x10FFFF := by
        by_cases hF4 : b0.val = 0xF4
        · have := c4 hF4; omega
        · omega
      have he := encode4 _ hlo hhi
      rw [hd]
      refine ⟨by simp, by simp, by simp only; omega, by simp only [MaxRune]; omega, ?_, ?_, ?_⟩
      · simp only [he, List.take_succ_cons, List.take_zero]
        rw [byteOf_eq _ b0 (by omega), byteOf_eq _ b1 (by omega), byteOf_eq _ b2 (by omega),
          byteOf_eq _ b3 (by omega)]
      · intro b hb
        simp only [List.take_succ_cons, List.take_zero, List.mem_cons, List.mem_nil_iff,
          or_false] at hb
        rcases hb with rfl | rfl | rfl | rfl <;> omega
      · intro rest
        simp only [List.take_succ_cons, List.take_zero, List.cons_append, List.nil_append]
        exact decode4 b0 b1 b2 b3 rest (by omega) (by omega) c1 c2 c3 c4 c5 c6 c7 c8
    · left
      apply decode4_bad b0 t (by omega) (by omega)
      intro b1 b2 b3 t3 ht hc
      exact hg ⟨b1, b2, b3, t3, ht, hc⟩

end Utf8

namespace Strconv
open Utf8

/-! ## Unquoting one character: hexadecimal digits and the forms of escape -/

theorem lit_bs_a : lit "\\a" = [backslash, 0x61] := by decide
theorem lit_bs_b : lit "\\b" = [backslash, 0x62] := by decide
theorem lit_bs_f : lit "\\f" = [backslash, 0x66] := by decide
theorem lit_bs_n : lit "\\n" = [backslash, 0x6e] := by decide
theorem lit_bs_r : lit "\\r" = [backslash, 0x72] := by decide
theorem lit_bs_t : lit "\\t" = [backslash, 0x74] := by decide
theorem lit_bs_v : lit "\\v" = [backslash, 0x76] := by decide
theorem lit_bs_x : lit "\\x" = [backslash, 0x78] := by decide
theorem lit_bs_u : lit "\\u" = [backslash, 0x75] := by decide
theorem lit_bs_U : lit "\\U" = [backslash, 0x55] := by decide

theorem unhex_hexDigit : ∀ d : Nat, d < 16 → unhex (hexDigit d) = some d := by decide

theorem hexDigit_ne_nl : ∀ d : Nat, d < 16 → hexDigit d ≠ 0x0a := by decide

theorem and_F (x : Nat) : x &&& 0xF = x % 16 := Nat.and_pow_two_sub_one_eq_mod x 4

theorem shl4_or (v d : Nat) (h : d < 16) : (v <<< 4) ||| d = v * 16 + d := by
  rw [Nat.shiftLeft_eq, or_eq_add _ _ 4 (by omega) (by omega)]

theorem hexValue_cons (d : Nat) (h : d < 16) (ds : GoString) (v : Nat) :
    hexValue (hexDigit d :: ds) v = hexValue ds (v * 16 + d) := by
  simp only [hexValue, unhex_hexDigit d h, shl4_or v d h]

theorem hexValue_nil (v : Nat) : hexValue [] v = some v := rfl

theorem toInt32_small (v : Nat) (h : v ≤ MaxRune) : toInt32 v = (v : Int) := by
  have hm : MaxRune = 0x10FFFF := rfl
  have h1 : v % 2 ^ 32 = v := Nat.mod_eq_of_lt (by omega)
  unfold toInt32
  rw [h1, if_pos (by omega)]

theorem byteOfInt_cast (r : Nat) : byteOfInt (r : Int) = byteOf r := by
  unfold byteOfInt byteOf
  apply Fin.ext
  have h : ((r : Int) % 256).toNat = r % 256 := by omega
  rw [h]
  simp [Fin.ofNat]

/-- What the unquoting loop appends for a non-negative rune. -/
theorem emit_cast (r : Nat) (mb : Bool) :
    (if (r : Int) < (RuneSelf : Int) ∨ ¬ mb = true then [byteOfInt (r : Int)]
      else EncodeRune (r : Int).toNat) =
    (if r < RuneSelf ∨ ¬ mb = true then [byteOf r] else EncodeRune r) := by
  have h : ((r : Int) < (RuneSelf : Int)) ↔ r < RuneSelf := Int.ofNat_lt
  simp only [h, byteOfInt_cast, Int.toNat_ofNat]

theorem uq_x (h1 h2 : Byte) (rest : GoString) (v : Nat) (h : hexValue [h1, h2] 0 = some v)
    (hv : v ≤ MaxRune) :
    UnquoteChar (backslash :: 0x78 :: h1 :: h2 :: rest) dquote = .ok ((v : Int), false, rest) := by
  have e92 : ((92 : Byte) : Nat) = 92 := rfl
  simp [UnquoteChar, backslash, dquote, squote, RuneSelf, h, e92, toInt32_small v hv]

theorem uq_u (h1 h2 h3 h4 : Byte) (rest : GoString) (v : Nat)
    (h : hexValue [h1, h2, h3, h4] 0 = some v) (hv : v ≤ MaxRune) :
    UnquoteChar (backslash :: 0x75 :: h1 :: h2 :: h3 :: h4 :: rest) dquote =
      .ok ((v : Int), true, rest) := by
  have e92 : ((92 : Byte) : Nat) = 92 := rfl
  have hle : ¬ ((v : Int) > (MaxRune : Int)) := by omega
  simp [UnquoteChar, backslash, dquote, squote, RuneSelf, h, e92, toInt32_small v hv]
  rw [if_neg (by omega), if_neg (by omega)]

theorem uq_U (h1 h2 h3 h4 h5 h6 h7 h8 : Byte) (rest : GoString) (v : Nat)
    (h : hexValue [h1, h2, h3, h4, h5, h6, h7, h8] 0 = some v) (hv : v ≤ MaxRune) :
    UnquoteChar (backslash :: 0x55 :: h1 :: h2 :: h3 :: h4 :: h5 :: h6 :: h7 :: h8 :: rest)
      dquote = .ok ((v : Int), true, rest) := by
  have e92 : ((92 : Byte) : Nat) = 92 := rfl
  simp [UnquoteChar, backslash, dquote, squote, RuneSelf, h, e92, toInt32_small v hv]
  rw [if_neg (by omega), if_neg (by omega)]

theorem uq_raw (b : Byte) (rest : GoString) (h1 : b.val < 0x80) (h2 : b ≠ backslash)
    (h3 : b ≠ dquote) : UnquoteChar (b :: rest) dquote = .ok ((b.val : Int), false, rest) := by
  simp only [UnquoteChar]
  rw [if_neg (by simp [h3]), if_neg (by simp only [RuneSelf]; omega), if_pos h2]

theorem uq_multi (b : Byte) (t : GoString) (h1 : 0x80 ≤ b.val) :
    UnquoteChar (b :: t) dquote =
      .ok (((DecodeRuneInString (b :: t)).1 : Int), true,
        (b :: t).drop (DecodeRuneInString (b :: t)).2) := by
  have hq : b ≠ dquote := by
    intro h; rw [h] at h1; revert h1; decide
  simp only [UnquoteChar]
  rw [if_neg (by simp [hq]), if_pos (by simp only [RuneSelf]; omega)]

end Strconv

namespace Strconv
open Utf8

/-! ## The hexadecimal digits of a rune read back as the rune -/

theorem shr4 (r : Nat) : r >>> 4 = r / 16 := Nat.shiftRight_eq_div_pow r 4
theorem shr8 (r : Nat) : r >>> 8 = r / 256 := Nat.shiftRight_eq_div_pow r 8
theorem shr16 (r : Nat) : r >>> 16 = r / 65536 := Nat.shiftRight_eq_div_pow r 16
theorem shr20 (r : Nat) : r >>> 20 = r / 1048576 := Nat.shiftRight_eq_div_pow r 20
theorem shr24 (r : Nat) : r >>> 24 = r / 16777216 := Nat.shiftRight_eq_div_pow r 24
theorem shr28 (r : Nat) : r >>> 28 = r / 268435456 := Nat.shiftRight_eq_div_pow r 28
theorem shr0 (r : Nat) : r >>> 0 = r := rfl

/-- The two hexadecimal digits written for a byte value read back as it. -/
theorem hex2 (x : Nat) (h : x < 256) :
    hexValue [hexDigit (x >>> 4), hexDigit (x &&& 0xF)] 0 = some x := by
  rw [shr4, and_F, hexValue_cons _ (by omega), hexValue_cons _ (by omega), hexValue_nil]
  congr 1
  omega

/-- The four hexadecimal digits written after `\u` read back as the rune. -/
theorem hex4 (r : Nat) (h : r < 0x10000) :
    hexValue [hexDigit ((r >>> 12) &&& 0xF), hexDigit ((r >>> 8) &&& 0xF),
      hexDigit ((r >>> 4) &&& 0xF), hexDigit ((r >>> 0) &&& 0xF)] 0 = some r := by
  simp only [shr12, shr8, shr4, shr0, and_F]
  rw [hexValue_cons _ (by omega), hexValue_cons _ (by omega), hexValue_cons _ (by omega),
    hexValue_cons _ (by omega), hexValue_nil]
  congr 1
  omega

/-- The eight hexadecimal digits written after `\U` read back as the rune. -/
theorem hex8 (r : Nat) (h : r < 0x100000000) :
    hexValue [hexDigit ((r >>> 28) &&& 0xF), hexDigit ((r >>> 24) &&& 0xF),
      hexDigit ((r >>> 20) &&& 0xF), hexDigit ((r >>> 16) &&& 0xF),
      hexDigit ((r >>> 12) &&& 0xF), hexDigit ((r >>> 8) &&& 0xF),
      hexDigit ((r >>> 4) &&& 0xF), hexDigit ((r >>> 0) &&& 0xF)] 0 = some r := by
  simp only [shr28, shr24, shr20, shr16, shr12, shr8, shr4, shr0, and_F]
  rw [hexValue_cons _ (by omega), hexValue_cons _ (by omega), hexValue_cons _ (by omega),
    hexValue_cons _ (by omega), hexValue_cons _ (by omega), hexValue_cons _ (by omega),
    hexValue_cons _ (by omega), hexValue_cons _ (by omega), hexValue_nil]
  congr 1
  omega

theorem hexDigit_and_ne_nl (x : Nat) : hexDigit (x &&& 0xF) ≠ 0x0a := by
  rw [and_F]; exact hexDigit_ne_nl _ (by omega)

theorem IsPrint_ascii (tb : Tables) (r : Nat) (h : r < 0x80) (hp : IsPrint tb r = true) :
    0x20 ≤ r ∧ r < 0x7F := by
  unfold IsPrint at hp
  rw [if_pos (by omega)] at hp
  by_cases h1 : 0x20 ≤ r ∧ r < 0x7F
  · exact h1
  · rw [if_neg h1, if_neg (by omega)] at hp
    exact absurd hp (by simp)

end Strconv

namespace Strconv
open Utf8

/-! ## The escape of one rune is read back as the bytes it was decoded from -/

theorem byteOf_small (r : Nat) (h : r < 256) : (byteOf r).val = r := by
  rw [byteOf_val]; omega

theorem uq_simple (c : Byte) (v : Nat) (rest : GoString)
    (h : (c = 0x61 ∧ v = 0x07) ∨ (c = 0x62 ∧ v = 0x08) ∨ (c = 0x66 ∧ v = 0x0c) ∨
      (c = 0x6e ∧ v = 0x0a) ∨ (c = 0x72 ∧ v = 0x0d) ∨ (c = 0x74 ∧ v = 0x09) ∨
      (c = 0x76 ∧ v = 0x0b) ∨ (c = backslash ∧ v = 0x5c) ∨ (c = dquote ∧ v = 0x22)) :
    UnquoteChar (backslash :: c :: rest) dquote = .ok ((v : Int), false, rest) := by
  have e92 : ((92 : Byte) : Nat) = 92 := rfl
  have e34 : ((34 : Byte) : Nat) = 34 := rfl
  rcases h with ⟨rfl, rfl⟩ | ⟨rfl, rfl⟩ | ⟨rfl, rfl⟩ | ⟨rfl, rfl⟩ | ⟨rfl, rfl⟩ | ⟨rfl, rfl⟩ |
    ⟨rfl, rfl⟩ | ⟨rfl, rfl⟩ | ⟨rfl, rfl⟩ <;>
  simp [UnquoteChar, backslash, dquote, squote, RuneSelf, e92, e34]


/-- The escape that `appendEscapedRune` writes for a rune `r` decoded from the
bytes `orig`: it holds no raw newline, it is `orig` itself when it holds no
backslash, and `UnquoteChar` reads it back, whatever follows, as a character
whose bytes are `orig`. -/
theorem appendEscapedRune_spec (tb : Tables) (r : Nat) (orig : GoString) (hr : r ≤ MaxRune)
    (ho1 : r < 0x80 → orig = [byteOf r])
    (ho2 : 0x80 ≤ r → EncodeRune r = orig ∧ (∀ b ∈ orig, 0x80 ≤ b.val) ∧
      ∃ b t, orig = b :: t ∧ ∀ rest, DecodeRuneInString (orig ++ rest) = (r, orig.length)) :
    (0x0a : Byte) ∉ appendEscapedRune tb r dquote false false ∧
    (backslash ∉ appendEscapedRune tb r dquote false false →
      appendEscapedRune tb r dquote false false = orig) ∧
    ∀ rest, ∃ c mb,
      UnquoteChar (appendEscapedRune tb r dquote false false ++ rest) dquote =
        .ok (c, mb, rest) ∧
      (if c < (RuneSelf : Int) ∨ ¬ mb = true then [byteOfInt c] else EncodeRune c.toNat) =
        orig := by
  have hEnc : EncodeRune r = orig := by
    by_cases h : r < 0x80
    · rw [ho1 h, encode1 r (by omega)]
    · exact (ho2 (by omega)).1
  have e92 : ((92 : Byte) : Nat) = 92 := rfl
  have e34 : ((34 : Byte) : Nat) = 34 := rfl
  have hmr : MaxRune = 0x10FFFF := rfl
  -- the result of reading back a rune `r` with flag `mb`
  have hemit : ∀ mb : Bool, (r < 0x80 ∨ mb = true) →
      (if (r : Int) < (RuneSelf : Int) ∨ ¬ mb = true then [byteOfInt (r : Int)]
        else EncodeRune (r : Int).toNat) = orig := by
    intro mb hmb
    rw [emit_cast]
    by_cases h : r < 0x80
    · rw [if_pos (Or.inl (by simp only [RuneSelf]; omega)), ho1 h]
    · have hm : mb = true := by rcases hmb with h' | h'; exact absurd h' h; exact h'
      rw [if_neg (by simp only [RuneSelf, hm]; simp; omega), hEnc]
  unfold appendEscapedRune
  by_cases hq : r = dquote.val ∨ r = backslash.val
  · -- always backslashed
    rw [if_pos hq]
    have hr' : r = 0x22 ∨ r = 0x5c := by
      rcases hq with h | h
      · left; rw [h]; rfl
      · right; rw [h]; rfl
    refine ⟨?_, ?_, ?_⟩
    · rcases hr' with rfl | rfl <;> decide
    · intro h; exact absurd (List.mem_cons_self _ _) h
    · intro rest
      refine ⟨(r : Int), false, ?_, hemit false (Or.inl (by omega))⟩
      rcases hr' with rfl | rfl
      · exact uq_simple _ _ rest (by decide)
      · exact uq_simple _ _ rest (by decide)
  rw [if_neg hq]
  have hq1 : r ≠ 0x22 := fun h => hq (Or.inl (by rw [h]; rfl))
  have hq2 : r ≠ 0x5c := fun h => hq (Or.inr (by rw [h]; rfl))
  rw [if_neg (by simp)]
  by_cases hp : IsPrint tb r = true
  · rw [if_pos (by simp [hp]), hEnc]
    by_cases h : r < 0x80
    · have hpr := IsPrint_ascii tb r h hp
      have ho := ho1 h
      have hb : (byteOf r).val = r := byteOf_small r (by omega)
      refine ⟨?_, fun _ => rfl, ?_⟩
      · rw [ho]
        intro hmem
        simp only [List.mem_singleton] at hmem
        have : (byteOf r).val = 10 := by rw [← hmem]; rfl
        omega
      · intro rest
        refine ⟨(r : Int), false, ?_, hemit false (Or.inl h)⟩
        rw [ho]
        have := uq_raw (byteOf r) rest (by omega)
          (by intro hc; rw [hc] at hb; rw [← hb] at hq2; exact hq2 rfl)
          (by intro hc; rw [hc] at hb; rw [← hb] at hq1; exact hq1 rfl)
        rw [hb] at this
        exact this
    · obtain ⟨_, hge, b, t, hbt, hdec⟩ := ho2 (by omega)
      refine ⟨?_, fun _ => rfl, ?_⟩
      · intro hmem
        have := hge _ hmem
        revert this; decide
      · intro rest
        refine ⟨(r : Int), true, ?_, hemit true (Or.inr rfl)⟩
        have hb : 0x80 ≤ b.val := hge b (by rw [hbt]; exact List.mem_cons_self _ _)
        have hd := hdec rest
        rw [hbt] at hd ⊢
        rw [List.cons_append] at hd ⊢
        rw [uq_multi b (t ++ rest) hb, hd]
        simp
  rw [if_neg (by simp [hp])]
  -- the one-letter escapes
  have simple : ∀ (v : Nat) (c : Byte), r = v → c ≠ 0x0a →
      ((c = 0x61 ∧ v = 0x07) ∨ (c = 0x62 ∧ v = 0x08) ∨ (c = 0x66 ∧ v = 0x0c) ∨
      (c = 0x6e ∧ v = 0x0a) ∨ (c = 0x72 ∧ v = 0x0d) ∨ (c = 0x74 ∧ v = 0x09) ∨
      (c = 0x76 ∧ v = 0x0b) ∨ (c = backslash ∧ v = 0x5c) ∨ (c = dquote ∧ v = 0x22)) →
      v < 0x80 →
      (0x0a : Byte) ∉ [backslash, c] ∧ (backslash ∉ [backslash, c] → [backslash, c] = orig) ∧
      ∀ rest, ∃ c1 mb, UnquoteChar ([backslash, c] ++ rest) dquote = .ok (c1, mb, rest) ∧
        (if c1 < (RuneSelf : Int) ∨ ¬ mb = true then [byteOfInt c1]
          else EncodeRune c1.toNat) = orig := by
    intro v c hv hc hcase hlt
    refine ⟨?_, fun h => absurd (List.mem_cons_self _ _) h, ?_⟩
    · intro hmem
      simp only [List.mem_cons, List.mem_nil_iff, or_false] at hmem
      rcases hmem with h | h
      · revert h; decide
      · exact hc h.symm
    · intro rest
      refine ⟨(r : Int), false, ?_, hemit false (Or.inl (by omega))⟩
      rw [hv]
      exact uq_simple c v rest hcase
  by_cases h7 : r = 0x07
  · rw [if_pos h7, lit_bs_a]; exact simple 0x07 _ h7 (by decide) (by decide) (by decide)
  rw [if_neg h7]
  by_cases h8 : r = 0x08
  · rw [if_pos h8, lit_bs_b]; exact simple 0x08 _ h8 (by decide) (by decide) (by decide)
  rw [if_neg h8]
  by_cases hc : r = 0x0c
  · rw [if_pos hc, lit_bs_f]; exact simple 0x0c _ hc (by decide) (by decide) (by decide)
  rw [if_neg hc]
  by_cases ha : r = 0x0a
  · rw [if_pos ha, lit_bs_n]; exact simple 0x0a _ ha (by decide) (by decide) (by decide)
  rw [if_neg ha]
  by_cases hd : r = 0x0d
  · rw [if_pos hd, lit_bs_r]; exact simple 0x0d _ hd (by decide) (by decide) (by decide)
  rw [if_neg hd]
  by_cases h9 : r = 0x09
  · rw [if_pos h9, lit_bs_t]; exact simple 0x09 _ h9 (by decide) (by decide) (by decide)
  rw [if_neg h9]
  by_cases hb : r = 0x0b
  · rw [if_pos hb, lit_bs_v]; exact simple 0x0b _ hb (by decide) (by decide) (by decide)
  rw [if_neg hb]
  have hbsnl : (0x0a : Byte) ≠ backslash := by decide
  by_cases hlow : r < 0x20
  · -- a control character: two hexadecimal digits
    rw [if_pos hlow, lit_bs_x, byteOf_small r (by omega)]
    refine ⟨?_, fun h => absurd (List.mem_cons_self _ _) h, ?_⟩
    · intro hmem
      simp only [List.cons_append, List.nil_append, List.mem_cons, List.mem_nil_iff,
        or_false] at hmem
      rcases hmem with h | h | h | h
      · exact hbsnl h
      · revert h; decide
      · rw [shr4] at h; exact hexDigit_ne_nl _ (by omega) h.symm
      · exact hexDigit_and_ne_nl _ h.symm
    · intro rest
      exact ⟨(r : Int), false, uq_x _ _ rest r (hex2 r (by omega)) hr,
        hemit false (Or.inl (by omega))⟩
  rw [if_neg hlow]
  have hnm : ¬ r > MaxRune := by omega
  simp only [if_neg hnm]
  by_cases h16 : r < 0x10000
  · rw [if_pos (Or.inr h16), lit_bs_u]
    refine ⟨?_, fun h => absurd (List.mem_cons_self _ _) h, ?_⟩
    · intro hmem
      simp only [List.cons_append, List.nil_append, List.mem_cons, List.mem_nil_iff,
        or_false] at hmem
      rcases hmem with h | h | h | h | h | h
      · exact hbsnl h
      · revert h; decide
      all_goals exact hexDigit_and_ne_nl _ h.symm
    · intro rest
      exact ⟨(r : Int), true, uq_u _ _ _ _ rest r (hex4 r h16) hr, hemit true (Or.inr rfl)⟩
  · rw [if_neg (by omega), lit_bs_U]
    refine ⟨?_, fun h => absurd (List.mem_cons_self _ _) h, ?_⟩
    · intro hmem
      simp only [List.cons_append, List.nil_append, List.mem_cons, List.mem_nil_iff,
        or_false] at hmem
      rcases hmem with h | h | h | h | h | h | h | h | h | h
      · exact hbsnl h
      · revert h; decide
      all_goals exact hexDigit_and_ne_nl _ h.symm
    · intro rest
      exact ⟨(r : Int), true, uq_U _ _ _ _ _ _ _ _ rest r (hex8 r (by omega)) hr,
        hemit true (Or.inr rfl)⟩

end Strconv

namespace Strconv
open Utf8

/-! ## One iteration of the quoting loop -/

theorem quoteStep_ascii (tb : Tables) (b0 : Byte) (t : GoString) (q : Byte) (a g : Bool)
    (h : b0.val < 0x80) :
    quoteStep tb (b0 :: t) q a g = (appendEscapedRune tb b0.val q a g, 1) := by
  have hc : ¬ (b0.val ≥ RuneSelf) := by simp only [RuneSelf]; omega
  have hb0 := b0.isLt
  have hd : ¬ (b0.val = RuneError) := by simp only [RuneError]; omega
  simp only [quoteStep, List.getD_cons_zero, if_neg hc, hd, and_false, if_false]

theorem quoteStep_invalid (tb : Tables) (b0 : Byte) (t : GoString) (q : Byte) (a g : Bool)
    (h : 0x80 ≤ b0.val) (hd : DecodeRuneInString (b0 :: t) = (RuneError, 1)) :
    quoteStep tb (b0 :: t) q a g =
      (lit "\\x" ++ [hexDigit (b0.val >>> 4), hexDigit (b0.val &&& 0xF)], 1) := by
  have hc : b0.val ≥ RuneSelf := by simp only [RuneSelf]; omega
  simp only [quoteStep, List.getD_cons_zero, if_pos hc, hd, and_self, if_true]

theorem quoteStep_valid (tb : Tables) (b0 : Byte) (t : GoString) (q : Byte) (a g : Bool)
    (h : 0x80 ≤ b0.val)
    (hd : ¬ ((DecodeRuneInString (b0 :: t)).2 = 1 ∧ (DecodeRuneInString (b0 :: t)).1 = RuneError)) :
    quoteStep tb (b0 :: t) q a g =
      (appendEscapedRune tb (DecodeRuneInString (b0 :: t)).1 q a g,
        (DecodeRuneInString (b0 :: t)).2) := by
  have hc : b0.val ≥ RuneSelf := by simp only [RuneSelf]; omega
  simp only [quoteStep, List.getD_cons_zero, if_pos hc, if_neg hd]

/-- One iteration of the quoting loop on a non-empty string: it consumes
between one byte and the whole string, writes no raw newline, writes the
consumed bytes themselves when it writes no backslash, and `UnquoteChar` reads
what it wrote back as the consumed bytes. -/
theorem quoteStep_spec (tb : Tables) (b0 : Byte) (t : GoString) :
    1 ≤ (quoteStep tb (b0 :: t) dquote false false).2 ∧
    (quoteStep tb (b0 :: t) dquote false false).2 ≤ (b0 :: t).length ∧
    (0x0a : Byte) ∉ (quoteStep tb (b0 :: t) dquote false false).1 ∧
    (backslash ∉ (quoteStep tb (b0 :: t) dquote false false).1 →
      (quoteStep tb (b0 :: t) dquote false false).1 =
        (b0 :: t).take (quoteStep tb (b0 :: t) dquote false false).2) ∧
    ∀ rest, ∃ c mb,
      UnquoteChar ((quoteStep tb (b0 :: t) dquote false false).1 ++ rest) dquote =
        .ok (c, mb, rest) ∧
      (if c < (RuneSelf : Int) ∨ ¬ mb = true then [byteOfInt c] else EncodeRune c.toNat) =
        (b0 :: t).take (quoteStep tb (b0 :: t) dquote false false).2 := by
  have hb0 := b0.isLt
  have hbsnl : (0x0a : Byte) ≠ backslash := by decide
  -- the escape of a single invalid byte
  have invalid : (0x0a : Byte) ∉ lit "\\x" ++ [hexDigit (b0.val >>> 4), hexDigit (b0.val &&& 0xF)] ∧
      (backslash ∉ lit "\\x" ++ [hexDigit (b0.val >>> 4), hexDigit (b0.val &&& 0xF)] →
        lit "\\x" ++ [hexDigit (b0.val >>> 4), hexDigit (b0.val &&& 0xF)] = [b0]) ∧
      ∀ rest, ∃ c mb,
        UnquoteChar ((lit "\\x" ++ [hexDigit (b0.val >>> 4), hexDigit (b0.val &&& 0xF)]) ++ rest)
          dquote = .ok (c, mb, rest) ∧
        (if c < (RuneSelf : Int) ∨ ¬ mb = true then [byteOfInt c]
          else EncodeRune c.toNat) = [b0] := by
    rw [lit_bs_x]
    refine ⟨?_, fun h => absurd (List.mem_cons_self _ _) h, ?_⟩
    · intro hmem
      simp only [List.cons_append, List.nil_append, List.mem_cons, List.mem_nil_iff,
        or_false] at hmem
      rcases hmem with h | h | h | h
      · exact hbsnl h
      · revert h; decide
      · rw [shr4] at h; exact hexDigit_ne_nl _ (by omega) h.symm
      · exact hexDigit_and_ne_nl _ h.symm
    · intro rest
      refine ⟨(b0.val : Int), false,
        uq_x _ _ rest b0.val (hex2 b0.val hb0) (by simp only [MaxRune]; omega), ?_⟩
      rw [emit_cast, if_pos (Or.inr (by simp)), byteOf_eq b0.val b0 (by omega)]
  by_cases hlow : b0.val < 0x80
  · -- an ASCII byte
    rw [quoteStep_ascii tb b0 t _ _ _ hlow]
    have hspec := appendEscapedRune_spec tb b0.val [b0] (by simp only [MaxRune]; omega)
      (fun _ => by rw [byteOf_eq b0.val b0 (by omega)]) (fun h => absurd h (by omega))
    simp only [List.take_succ_cons, List.take_zero, List.length_cons]
    exact ⟨le_refl _, by omega, hspec⟩
  · rcases decode_multi b0 t (by omega) with hd | ⟨h2, hlen, hge, hmax, henc, hbytes, hdec⟩
    · rw [quoteStep_invalid tb b0 t _ _ _ (by omega) hd]
      simp only [List.take_succ_cons, List.take_zero, List.length_cons]
      exact ⟨le_refl _, by omega, invalid⟩
    · rw [quoteStep_valid tb b0 t _ _ _ (by omega) (by omega)]
      have hlen' : ((b0 :: t).take (DecodeRuneInString (b0 :: t)).2).length =
          (DecodeRuneInString (b0 :: t)).2 := by
        rw [List.length_take]; omega
      have hspec := appendEscapedRune_spec tb (DecodeRuneInString (b0 :: t)).1
        ((b0 :: t).take (DecodeRuneInString (b0 :: t)).2) hmax
        (fun h => absurd h (by omega))
        (fun _ => ⟨henc, hbytes, b0, t.take ((DecodeRuneInString (b0 :: t)).2 - 1), by
          obtain ⟨k, hk⟩ : ∃ k, (DecodeRuneInString (b0 :: t)).2 = k + 1 :=
            ⟨(DecodeRuneInString (b0 :: t)).2 - 1, by omega⟩
          rw [hk]; simp, by
          intro rest; rw [hdec rest, hlen']⟩)
      exact ⟨by omega, hlen, hspec⟩

end Strconv

namespace Strconv
open Utf8

/-! ## The quoting loop against the unquoting loop -/

theorem unquoteLoop_nil (q : Byte) (fuel : Nat) (buf : GoString) :
    unquoteLoop q fuel [] buf = .ok buf := by
  cases fuel <;> simp [unquoteLoop]

/-- The body that the quoting loop writes for `s`: no raw newline; `s` itself
when it holds no backslash; and the unquoting loop reads it back as `s`. -/
theorem quoteLoop_spec (tb : Tables) : ∀ (fuel : Nat) (s : GoString), s.length ≤ fuel →
    (0x0a : Byte) ∉ quoteLoop tb dquote false false fuel s ∧
    (backslash ∉ quoteLoop tb dquote false false fuel s →
      quoteLoop tb dquote false false fuel s = s) ∧
    ∀ (fuel2 : Nat) (buf : GoString),
      (quoteLoop tb dquote false false fuel s).length ≤ fuel2 →
      unquoteLoop dquote fuel2 (quoteLoop tb dquote false false fuel s) buf =
        .ok (buf ++ s) := by
  intro fuel
  induction fuel with
  | zero =>
    intro s hs
    have hnil : s = [] := List.length_eq_zero.mp (by omega)
    subst hnil
    refine ⟨by simp [quoteLoop], fun _ => by simp [quoteLoop], ?_⟩
    intro fuel2 buf _
    simp [quoteLoop, unquoteLoop_nil]
  | succ fuel ih =>
    intro s hs
    cases s with
    | nil =>
      refine ⟨by simp [quoteLoop], fun _ => by simp [quoteLoop], ?_⟩
      intro fuel2 buf _
      simp [quoteLoop, unquoteLoop_nil]
    | cons b0 t =>
      obtain ⟨hw1, hw2, hnl, hraw, huq⟩ := quoteStep_spec tb b0 t
      have hunf : quoteLoop tb dquote false false (fuel + 1) (b0 :: t) =
          (quoteStep tb (b0 :: t) dquote false false).1 ++
            quoteLoop tb dquote false false fuel
              ((b0 :: t).drop (quoteStep tb (b0 :: t) dquote false false).2) := by
        simp [quoteLoop]
      have hdl : ((b0 :: t).drop (quoteStep tb (b0 :: t) dquote false false).2).length ≤
          fuel := by
        rw [List.length_drop]; simp only [List.length_cons] at hs ⊢; omega
      obtain ⟨ih1, ih2, ih3⟩ := ih _ hdl
      rw [hunf]
      refine ⟨?_, ?_, ?_⟩
      · intro hmem
        rcases List.mem_append.mp hmem with h | h
        · exact hnl h
        · exact ih1 h
      · intro hbs
        have h1 := hraw (fun h => hbs (List.mem_append.mpr (Or.inl h)))
        have h2 := ih2 (fun h => hbs (List.mem_append.mpr (Or.inr h)))
        rw [h2, h1, List.take_append_drop]
      · intro fuel2 buf hf2
        obtain ⟨c, mb, hc, hem⟩ := huq (quoteLoop tb dquote false false fuel
          ((b0 :: t).drop (quoteStep tb (b0 :: t) dquote false false).2))
        have hne : (quoteStep tb (b0 :: t) dquote false false).1 ≠ [] := by
          intro hnil
          rw [hnil] at hraw
          have := hraw (by simp)
          have hl := congrArg List.length this
          rw [List.length_take] at hl
          simp only [List.length_nil, List.length_cons] at hl hw2
          omega
        have hpos : 0 < ((quoteStep tb (b0 :: t) dquote false false).1 ++
            quoteLoop tb dquote false false fuel
              ((b0 :: t).drop (quoteStep tb (b0 :: t) dquote false false).2)).length := by
          rw [List.length_append]
          have := List.length_pos.mpr hne
          omega
        obtain ⟨f2, rfl⟩ : ∃ f2, fuel2 = f2 + 1 := ⟨fuel2 - 1, by omega⟩
        have hsq : ¬ (dquote = squote) := by decide
        simp only [unquoteLoop, hpos, gt_iff_lt, if_true, hc, hsq, false_and, if_false]
        have hrest := ih3 f2
          (if c < (RuneSelf : Int) ∨ ¬ mb = true then buf ++ [byteOfInt c]
            else buf ++ EncodeRune c.toNat)
          (by
            rw [List.length_append] at hf2
            have := List.length_pos.mpr hne
            omega)
        rw [hrest]
        congr 1
        have : (if c < (RuneSelf : Int) ∨ ¬ mb = true then buf ++ [byteOfInt c]
            else buf ++ EncodeRune c.toNat) =
            buf ++ (if c < (RuneSelf : Int) ∨ ¬ mb = true then [byteOfInt c]
              else EncodeRune c.toNat) := by
          split <;> rfl
        rw [this, hem, List.append_assoc, List.take_append_drop]

end Strconv

namespace Strconv
open Utf8

/-! ## `Unquote` after `Quote` -/

/-- What `Quote` writes for a byte sequence, `Unquote` reads back as that
sequence. -/
theorem Unquote_Quote (tb : Tables) (validated : Bool) (b : GoString) :
    Unquote validated (Quote tb b) = .ok b := by
  obtain ⟨hnl, hraw, hloop⟩ := quoteLoop_spec tb b.length b (le_refl _)
  generalize hbody : quoteLoop tb dquote false false b.length b = body at hnl hraw hloop
  have hQ : Quote tb b = dquote :: (body ++ [dquote]) := by
    simp [Quote, appendQuotedWith, hbody]
  rw [hQ]
  have hlen : (dquote :: (body ++ [dquote])).length = body.length + 2 := by simp
  have hlast : (dquote :: (body ++ [dquote])).getD (body.length + 2 - 1) 0 = dquote := by
    simp [List.getD_eq_getElem?_getD, List.getElem?_append_right]
  have hinner : ((dquote :: (body ++ [dquote])).take (body.length + 2 - 1)).drop 1 = body := by
    simp
  unfold Unquote
  simp only [hlen, hlast, hinner, List.getD_cons_zero]
  rw [if_neg (by omega), if_neg (by simp), if_neg (by decide), if_neg (by decide),
    if_neg (by simpa [contains] using hnl)]
  split
  · rename_i hfast
    have hbs : backslash ∉ body := by simpa [contains] using hfast.1.1
    rw [hraw hbs]
  · simpa using hloop body.length [] (le_refl _)

end Strconv

namespace Embed

/-! ## embed.go: the loops of `main` -/

theorem upTo_ok (s : Slice) (hi : Nat) (h : hi ≤ s.cap) :
    s.upTo hi = .ok { data := (s.data ++ s.spare).take hi, spare := (s.data ++ s.spare).drop hi } := by
  simp [Slice.upTo, h]

/-- With a capacity of two or more, `gzipContent` does not panic. -/
theorem gzipContent_ne_panic (gz : GoString → GoString → Time → Slice) (inp : Slice)
    (name : GoString) (mtime : Time) (h : 2 ≤ inp.cap) :
    gzipContent gz inp name mtime ≠ .panic := by
  unfold gzipContent
  rw [upTo_ok inp 2 h]
  simp only
  split <;> simp

/-- The entry of a match, `none` when the match is skipped or the run panics. -/
theorem processFile_ne_panic (w : World) (gzipit : Bool) (base m : GoString)
    (hcap : gzipit = false ∨ ∀ p s, w.ReadFile p = some s → 2 ≤ s.cap) :
    processFile w gzipit base m ≠ .panic := by
  unfold processFile
  cases hs : w.Stat m with
  | none => simp
  | some fi =>
    simp only
    split
    · simp
    · cases hr : w.ReadFile m with
      | none => simp
      | some i =>
        cases hrel : w.Rel base m with
        | none => simp
        | some r =>
          simp only
          rcases hcap with hg | hc
          · subst hg; simp
          · split
            · have hnp := gzipContent_ne_panic w.gz i (w.Base m) fi.ModTime (hc m i hr)
              cases hz : gzipContent w.gz i (w.Base m) fi.ModTime with
              | panic => exact absurd hz hnp
              | ok i1 => simp
            · simp

theorem processMatches_eq (w : World) (gzipit : Bool) (base : GoString)
    (hcap : gzipit = false ∨ ∀ p s, w.ReadFile p = some s → 2 ≤ s.cap) (ms : List GoString) :
    processMatches w gzipit base ms =
      (ms.filterMap (fun m => match processFile w gzipit base m with
        | .ok e => e
        | .panic => none), true) := by
  induction ms with
  | nil => rfl
  | cons m ms ih =>
    have hnp := processFile_ne_panic w gzipit base m hcap
    unfold processMatches
    cases hp : processFile w gzipit base m with
    | panic => exact absurd hp hnp
    | ok e =>
      cases e with
      | none => simp [ih, List.filterMap_cons, hp]
      | some e => simp [ih, List.filterMap_cons, hp]

theorem processArgs_eq (w : World) (gzipit : Bool) (base : GoString)
    (hcap : gzipit = false ∨ ∀ p s, w.ReadFile p = some s → 2 ≤ s.cap) (args : List GoString) :
    processArgs w gzipit base args =
      ((args.takeWhile (fun ifs => (w.Glob (w.Join base (FromSlash w.Separator ifs))).isSome)).flatMap
        (fun ifs => ((w.Glob (w.Join base (FromSlash w.Separator ifs))).getD []).filterMap
          (fun m => match processFile w gzipit base m with
            | .ok e => e
            | .panic => none)),
       if args.all (fun ifs => (w.Glob (w.Join base (FromSlash w.Separator ifs))).isSome)
       then Exit.returned else Exit.fatal) := by
  induction args with
  | nil => rfl
  | cons ifs rest ih =>
    unfold processArgs
    cases hg : w.Glob (w.Join base (FromSlash w.Separator ifs)) with
    | none => simp [List.takeWhile_cons, hg]
    | some ms =>
      simp only [processMatches_eq w gzipit base hcap ms, if_true, ih]
      simp [List.takeWhile_cons, hg, List.flatMap_cons]

end Embed

namespace Embed

/-! ## embed.go: compression and quoting -/

/-- C1: for every input whose first two bytes are `0x1f, 0x8b`, and every name
and modification time, `gzipContent` returns exactly its input (the same
bytes, the same slice); applied to its own output it returns it again, so
nothing is compressed a second time. -/
theorem gzipContent_magic_unchanged (gz : GoString → GoString → Time → Slice)
    (rest spare : List Byte) (name name2 : GoString) (mtime mtime2 : Time) :
    gzipContent gz ⟨0x1f :: 0x8b :: rest, spare⟩ name mtime =
      .ok ⟨0x1f :: 0x8b :: rest, spare⟩ ∧
    (match gzipContent gz ⟨0x1f :: 0x8b :: rest, spare⟩ name mtime with
      | .ok out => gzipContent gz out name2 mtime2
      | .panic => .panic) = .ok ⟨0x1f :: 0x8b :: rest, spare⟩ := by
  have h : ∀ (n : GoString) (t : Time),
      gzipContent gz ⟨0x1f :: 0x8b :: rest, spare⟩ n t = .ok ⟨0x1f :: 0x8b :: rest, spare⟩ := by
    intro n t
    have hc : 2 ≤ (⟨0x1f :: 0x8b :: rest, spare⟩ : Slice).cap := by
      simp only [Slice.cap, List.length_cons]; omega
    unfold gzipContent
    rw [upTo_ok _ 2 hc]
    simp [bytesEqual]
  refine ⟨h name mtime, ?_⟩
  rw [h name mtime]
  exact h name2 mtime2

/-- Called on its own with a slice of capacity below two (the empty slice, a
one-byte slice, each without spare capacity), `gzipContent` panics: the slice
expression `in[:2]` is out of range. -/
theorem gzipContent_short_panics (gz : GoString → GoString → Time → Slice)
    (name : GoString) (mtime : Time) (b : Byte) :
    gzipContent gz ⟨[], []⟩ name mtime = .panic ∧
    gzipContent gz ⟨[b], []⟩ name mtime = .panic := by
  constructor <;> simp [gzipContent, Slice.upTo, Slice.cap]

/-- C2: compression never fails the run. For a slice of any length (the empty
content and a single byte included) whose capacity is at least two, as that of
every slice `ioutil.ReadFile` returns, the slice expression `in[:2]` is in
range and `gzipContent` returns bytes: its input or what the gzip writer
produced; and a run of `main` over files read into such slices never
panics. -/
theorem gzipContent_never_fails (gz : GoString → GoString → Time → Slice) (inp : Slice)
    (name : GoString) (mtime : Time) (w : World) (f : Flags) (args : List GoString)
    (hinp : 2 ≤ inp.cap) (hcap : ∀ p s, w.ReadFile p = some s → 2 ≤ s.cap) :
    inp.upTo 2 ≠ .panic ∧
    (gzipContent gz inp name mtime = .ok inp ∨
      gzipContent gz inp name mtime = .ok (gz inp.data name mtime)) ∧
    (main w f args).exit ≠ .panicked := by
  refine ⟨?_, ?_, ?_⟩
  · rw [upTo_ok inp 2 hinp]; simp
  · unfold gzipContent
    rw [upTo_ok inp 2 hinp]
    simp only
    split
    · exact Or.inl rfl
    · exact Or.inr rfl
  · have hst : (processArgs w f.gzipit (FromSlash w.Separator f.base) args).2 ≠
        Exit.panicked := by
      rw [processArgs_eq w f.gzipit (FromSlash w.Separator f.base) (Or.inr hcap) args]
      simp only
      split <;> simp
    unfold main
    split
    · simp
    · simp only
      split
      · simp
      · cases hx : (processArgs w f.gzipit (FromSlash w.Separator f.base) args).2 with
        | fatal => simp
        | panicked => exact absurd hx hst
        | returned =>
          simp only
          split
          · simp
          · split <;> simp

/-- C2 on the example: an empty and a one-byte content, each read into a
slice with spare capacity, are compressed, and the run with `-gzip` over
`a/*.txt` does not panic. -/
theorem gzipContent_never_fails_witness :
    (2 ≤ (⟨[], [0, 0, 0, 0]⟩ : Slice).cap ∧
      ∀ p s, exampleWorld.ReadFile p = some s → 2 ≤ s.cap) ∧
    ((⟨[], [0, 0, 0, 0]⟩ : Slice).upTo 2 ≠ .panic ∧
      (gzipContent exampleWorld.gz ⟨[], [0, 0, 0, 0]⟩ [] 0 = .ok ⟨[], [0, 0, 0, 0]⟩ ∨
        gzipContent exampleWorld.gz ⟨[], [0, 0, 0, 0]⟩ [] 0 =
          .ok (exampleWorld.gz [] [] 0)) ∧
      (main exampleWorld exampleGzipFlags [lit "a/*.txt"]).exit ≠ .panicked) ∧
    gzipContent exampleWorld.gz ⟨[], [0, 0, 0, 0]⟩ [] 0 = .ok ⟨[0x1f, 0x8b], []⟩ ∧
    gzipContent exampleWorld.gz ⟨[0x41], [0, 0, 0]⟩ [] 0 = .ok ⟨[0x1f, 0x8b, 0x41], []⟩ :=
  have hcap : ∀ p s, exampleWorld.ReadFile p = some s → 2 ≤ s.cap := by
    intro p s h
    by_cases hp : p = lit "/base/data"
    · have h0 : exampleWorld.ReadFile p = none := if_pos hp
      rw [h0] at h
      cases h
    · have h1 : exampleWorld.ReadFile p = some ⟨p, List.replicate 512 0⟩ := if_neg hp
      rw [h1] at h
      cases h
      show 2 ≤ p.length + (List.replicate 512 (0 : Byte)).length
      rw [List.length_replicate]
      omega
  ⟨⟨by decide, hcap⟩,
    gzipContent_never_fails exampleWorld.gz ⟨[], [0, 0, 0, 0]⟩ [] 0 exampleWorld
      exampleGzipFlags [lit "a/*.txt"] (by decide) hcap,
    by decide, by decide⟩

/-- C3: for every byte sequence, the literal that the verb `%q` writes is read
back by `strconv.Unquote` as exactly that sequence; the emitter writes the key
and the payload of an entry with that verb. -/
theorem fmtQ_roundtrip (tb : Strconv.Tables) (validated : Bool) (key payload : GoString) :
    Strconv.Unquote validated (fmtQ tb key) = .ok key ∧
    Strconv.Unquote validated (fmtQ tb payload) = .ok payload ∧
    entryText tb (key, payload) =
      lit "\t" ++ fmtQ tb key ++ lit ": []byte(" ++ fmtQ tb payload ++ lit "),\n" :=
  ⟨Strconv.Unquote_Quote tb validated key, Strconv.Unquote_Quote tb validated payload, rfl⟩

end Embed

namespace Embed

/-! ## embed.go: the order of the entries -/

/-- C4: the entries `main` writes are, pattern by pattern in the order given
and within a pattern in the order `filepath.Glob` returns its matches, the
entries of the matches that are not skipped; nothing is removed as a
duplicate. An invalid pattern ends the run after the entries of the patterns
before it. (With compression on, every slice read has a capacity of at least
two.) -/
theorem main_entries_in_order (w : World) (f : Flags) (args : List GoString)
    (hcap : f.gzipit = false ∨ ∀ p s, w.ReadFile p = some s → 2 ≤ s.cap)
    (hflags : f.pkg ≠ [] ∧ f.vn ≠ [] ∧ f.outf ≠ [] ∧ args ≠ [])
    (hcreate : w.Create f.outf = true) :
    (processArgs w f.gzipit (FromSlash w.Separator f.base) args).1 =
      (args.takeWhile (fun ifs =>
        (w.Glob (w.Join (FromSlash w.Separator f.base) (FromSlash w.Separator ifs))).isSome)).flatMap
        (fun ifs =>
          ((w.Glob (w.Join (FromSlash w.Separator f.base)
            (FromSlash w.Separator ifs))).getD []).filterMap
            (fun m => match processFile w f.gzipit (FromSlash w.Separator f.base) m with
              | .ok e => e
              | .panic => none)) ∧
    ∃ tail, (main w f args).events =
      [Event.create f.outf, .write (headerText f.pkg), .write (varText f.vn)] ++
        (processArgs w f.gzipit (FromSlash w.Separator f.base) args).1.map
          (fun e => Event.write (entryText w.tables e)) ++ tail ∧
      ∀ e ∈ tail, e = Event.write closingText ∨ e = .flush ∨ e = .close ∨ e = .fatal := by
  refine ⟨congrArg Prod.fst (processArgs_eq w f.gzipit _ hcap args), ?_⟩
  obtain ⟨h1, h2, h3, h4⟩ := hflags
  have hlen : ¬ args.length = 0 := fun h => h4 (List.length_eq_zero.mp h)
  unfold main
  rw [if_neg (by simp [h1, h2, h3, hlen])]
  simp only [hcreate, not_true_eq_false, if_false]
  cases (processArgs w f.gzipit (FromSlash w.Separator f.base) args).2 with
  | fatal => exact ⟨[.fatal], by simp, by simp⟩
  | panicked => exact ⟨[.close], by simp, by simp⟩
  | returned =>
    simp only
    split
    · exact ⟨[.write closingText, .flush, .fatal], by simp, by simp⟩
    · split
      · exact ⟨[.write closingText, .flush, .close, .fatal], by simp, by simp⟩
      · exact ⟨[.write closingText, .flush, .close, .close], by simp, by simp⟩

end Embed

namespace Embed

/-! ## embed.go: skipped matches, and the text of a run -/

/-- What `processFile` gives for a match that passes the four checks. -/
theorem processFile_some_iff (w : World) (gzipit : Bool) (base m : GoString)
    (hcap : gzipit = false ∨ ∀ p s, w.ReadFile p = some s → 2 ≤ s.cap) :
    (∃ e, processFile w gzipit base m = .ok (some e)) ↔
      ((∃ fi, w.Stat m = some fi ∧ fi.IsDir = false) ∧ (∃ i, w.ReadFile m = some i) ∧
        ∃ r, w.Rel base m = some r) := by
  unfold processFile
  cases hs : w.Stat m with
  | none => simp
  | some fi =>
    cases hd : fi.IsDir with
    | true => simp [hd]
    | false =>
      cases hr : w.ReadFile m with
      | none => simp [hd]
      | some i =>
        cases hrel : w.Rel base m with
        | none => simp [hd]
        | some r =>
          cases hg : gzipit with
          | false => simp [hd]
          | true =>
            have hc : 2 ≤ i.cap := by
              rcases hcap with h | h
              · rw [hg] at h; exact absurd h (by simp)
              · exact h m i hr
            have hnp := gzipContent_ne_panic w.gz i (w.Base m) fi.ModTime hc
            cases hz : gzipContent w.gz i (w.Base m) fi.ModTime with
            | panic => exact absurd hz hnp
            | ok i1 => simp [hd, hz]

/-- C5: a match contributes an entry exactly when its stat succeeds, it is not
a directory, its content is read and its relative path is computed; every
other match is skipped, the loop runs to its end, and the entries of the
remaining matches are written in order. (With compression on, every slice
read has a capacity of at least two.) -/
theorem processMatches_skips (w : World) (gzipit : Bool) (base : GoString)
    (hcap : gzipit = false ∨ ∀ p s, w.ReadFile p = some s → 2 ≤ s.cap)
    (ms : List GoString) :
    processMatches w gzipit base ms =
      (ms.filterMap (fun m => match processFile w gzipit base m with
        | .ok e => e
        | .panic => none), true) ∧
    ∀ m, (∃ e, processFile w gzipit base m = .ok (some e)) ↔
      ((∃ fi, w.Stat m = some fi ∧ fi.IsDir = false) ∧ (∃ i, w.ReadFile m = some i) ∧
        ∃ r, w.Rel base m = some r) :=
  ⟨processMatches_eq w gzipit base hcap ms, fun m => processFile_some_iff w gzipit base m hcap⟩

/-- C5 on the example: the pattern `data*` matches the directory `data` and
the file `data.txt`; only the entry of `data.txt` is written. -/
theorem processMatches_skips_witness :
    ((false = false ∨ ∀ p s, exampleWorld.ReadFile p = some s → 2 ≤ s.cap) ∧
    (processMatches exampleWorld false (lit "/base") [lit "/base/data", lit "/base/data.txt"] =
      ([lit "/base/data", lit "/base/data.txt"].filterMap
        (fun m => match processFile exampleWorld false (lit "/base") m with
          | .ok e => e
          | .panic => none), true) ∧
    ∀ m, (∃ e, processFile exampleWorld false (lit "/base") m = .ok (some e)) ↔
      ((∃ fi, exampleWorld.Stat m = some fi ∧ fi.IsDir = false) ∧
        (∃ i, exampleWorld.ReadFile m = some i) ∧
        ∃ r, exampleWorld.Rel (lit "/base") m = some r))) ∧
    processMatches exampleWorld false (lit "/base") [lit "/base/data", lit "/base/data.txt"] =
      ([(lit "data.txt", lit "/base/data.txt")], true) :=
  ⟨⟨Or.inl rfl, processMatches_skips exampleWorld false (lit "/base") (Or.inl rfl) _⟩,
    by decide⟩

theorem text_append (a b : List Event) (x : Exit) :
    Run.text ⟨a ++ b, x⟩ = Run.text ⟨a, x⟩ ++ Run.text ⟨b, x⟩ := by
  simp [Run.text, List.flatMap_append]

theorem text_entries (tb : Strconv.Tables) (es : List (GoString × GoString)) (x : Exit) :
    Run.text ⟨es.map (fun e => Event.write (entryText tb e)), x⟩ = es.flatMap (entryText tb) := by
  induction es with
  | nil => rfl
  | cons a l ih =>
    simp only [Run.text, List.map_cons, List.flatMap_cons] at ih ⊢
    rw [ih]

theorem text_no_write (tail : List Event) (x : Exit)
    (htail : ∀ e ∈ tail, ∀ t, e ≠ Event.write t) : Run.text ⟨tail, x⟩ = [] := by
  induction tail with
  | nil => rfl
  | cons a l ih =>
    have ha := htail a (List.mem_cons_self _ _)
    have hl := ih (fun e he => htail e (List.mem_cons_of_mem _ he))
    simp only [Run.text, List.flatMap_cons] at hl ⊢
    rw [hl]
    cases a with
    | write t => exact absurd rfl (ha t)
    | _ => rfl

/-- The text of a run that wrote the header, the entries and the closing line. -/
theorem text_of_events (tb : Strconv.Tables) (out pkg vn : GoString)
    (es : List (GoString × GoString)) (tail : List Event)
    (htail : ∀ e ∈ tail, ∀ t, e ≠ Event.write t) (x : Exit) :
    Run.text (Run.mk ([Event.create out, .write (headerText pkg), .write (varText vn)] ++
        es.map (fun e => Event.write (entryText tb e)) ++ [.write closingText, .flush] ++ tail)
      x) =
      headerText pkg ++ varText vn ++ es.flatMap (entryText tb) ++ closingText := by
  rw [text_append, text_append, text_append, text_entries, text_no_write tail x htail]
  simp [Run.text, List.flatMap_cons]

end Embed

namespace Embed

/-! ## embed.go: the generated text and the usage guard -/

/-- C6: when the flags are valid, the output file is created and every pattern
is well formed, the text `main` writes is the header with the package name,
the line opening the map variable, one line per entry in order (a tab, the
quoted key, `: []byte(`, the quoted payload, `),` and a newline) and the
closing line; with compression off the payload of an entry is the content
read from its file. (With compression on, every slice read has a capacity of
at least two.) -/
theorem main_text (w : World) (f : Flags) (args : List GoString)
    (hflags : f.pkg ≠ [] ∧ f.vn ≠ [] ∧ f.outf ≠ [] ∧ args ≠ [])
    (hcreate : w.Create f.outf = true)
    (hglob : ∀ ifs ∈ args,
      (w.Glob (w.Join (FromSlash w.Separator f.base) (FromSlash w.Separator ifs))).isSome = true)
    (hcap : f.gzipit = false ∨ ∀ p s, w.ReadFile p = some s → 2 ≤ s.cap) :
    (main w f args).text =
      lit "// This file was generated by embed.go. DO NOT EDIT.\n\npackage " ++ f.pkg ++
        lit "\n\n" ++ (lit "var " ++ f.vn ++ lit " = map[string][]byte\x7b\n") ++
        (processArgs w f.gzipit (FromSlash w.Separator f.base) args).1.flatMap
          (fun e => lit "\t" ++ Strconv.Quote w.tables e.1 ++ lit ": []byte(" ++
            Strconv.Quote w.tables e.2 ++ lit "),\n") ++
        lit "\x7d\n" ∧
    (f.gzipit = false → ∀ m e,
      processFile w f.gzipit (FromSlash w.Separator f.base) m = .ok (some e) →
      ∃ i, w.ReadFile m = some i ∧ e.2 = i.data) := by
  constructor
  · obtain ⟨h1, h2, h3, h4⟩ := hflags
    have hlen : ¬ args.length = 0 := fun h => h4 (List.length_eq_zero.mp h)
    have hall : args.all (fun ifs => (w.Glob (w.Join (FromSlash w.Separator f.base)
        (FromSlash w.Separator ifs))).isSome) = true := by
      rw [List.all_eq_true]; exact hglob
    have hexit : (processArgs w f.gzipit (FromSlash w.Separator f.base) args).2 =
        Exit.returned := by
      rw [processArgs_eq w f.gzipit _ hcap args]
      simp only [hall, if_true]
    have htext : ∀ (tail : List Event) (x : Exit), (∀ e ∈ tail, ∀ t, e ≠ Event.write t) →
        Run.text (Run.mk ([Event.create f.outf, .write (headerText f.pkg),
          .write (varText f.vn)] ++
          (processArgs w f.gzipit (FromSlash w.Separator f.base) args).1.map
            (fun e => Event.write (entryText w.tables e)) ++
          [.write closingText, .flush] ++ tail) x) =
        lit "// This file was generated by embed.go. DO NOT EDIT.\n\npackage " ++ f.pkg ++
          lit "\n\n" ++ (lit "var " ++ f.vn ++ lit " = map[string][]byte\x7b\n") ++
          (processArgs w f.gzipit (FromSlash w.Separator f.base) args).1.flatMap
            (fun e => lit "\t" ++ Strconv.Quote w.tables e.1 ++ lit ": []byte(" ++
              Strconv.Quote w.tables e.2 ++ lit "),\n") ++
          lit "\x7d\n" := by
      intro tail x ht
      rw [text_of_events w.tables f.outf f.pkg f.vn _ tail ht x]
      rfl
    unfold main
    rw [if_neg (by simp [h1, h2, h3, hlen])]
    simp only [hcreate, not_true_eq_false, if_false, hexit]
    split
    · exact htext [.fatal] _ (by simp)
    · split
      · exact htext [.close, .fatal] _ (by simp)
      · exact htext [.close, .close] _ (by simp)
  · intro hg m e he
    rw [hg] at he
    unfold processFile at he
    cases hs : w.Stat m with
    | none => simp [hs] at he
    | some fi =>
      cases hd : fi.IsDir with
      | true => simp [hs, hd] at he
      | false =>
        cases hr : w.ReadFile m with
        | none => simp [hs, hd, hr] at he
        | some i =>
          cases hrel : w.Rel (FromSlash w.Separator f.base) m with
          | none => simp [hs, hd, hr, hrel] at he
          | some r =>
            simp [hs, hd, hr, hrel] at he
            exact ⟨i, rfl, by rw [← he]⟩

/-- C6 on the example: patterns `a/*.txt` and `b/*.txt` under `/base`. -/
theorem main_text_witness :
    ((exampleFlags.pkg ≠ [] ∧ exampleFlags.vn ≠ [] ∧ exampleFlags.outf ≠ [] ∧
      [lit "a/*.txt", lit "b/*.txt"] ≠ []) ∧
    (main exampleWorld exampleFlags [lit "a/*.txt", lit "b/*.txt"]).text =
      lit "// This file was generated by embed.go. DO NOT EDIT.\n\npackage " ++
        exampleFlags.pkg ++ lit "\n\n" ++
        (lit "var " ++ exampleFlags.vn ++ lit " = map[string][]byte\x7b\n") ++
        (processArgs exampleWorld exampleFlags.gzipit
          (FromSlash exampleWorld.Separator exampleFlags.base)
          [lit "a/*.txt", lit "b/*.txt"]).1.flatMap
          (fun e => lit "\t" ++ Strconv.Quote exampleWorld.tables e.1 ++ lit ": []byte(" ++
            Strconv.Quote exampleWorld.tables e.2 ++ lit "),\n") ++
        lit "\x7d\n") ∧
    (processArgs exampleWorld exampleFlags.gzipit
      (FromSlash exampleWorld.Separator exampleFlags.base) [lit "a/*.txt", lit "b/*.txt"]).1 =
      [(lit "a/1.txt", lit "/base/a/1.txt"), (lit "a/2.txt", lit "/base/a/2.txt"),
        (lit "b/1.txt", lit "/base/b/1.txt")] :=
  ⟨⟨by decide, (main_text exampleWorld exampleFlags [lit "a/*.txt", lit "b/*.txt"]
      (by decide) rfl (by decide) (Or.inl rfl)).1⟩, by decide⟩

/-- C7: when the package name, the variable name or the output path is empty,
or no pattern is given, `main` only prints the usage and returns: no file is
created, nothing is written, no pattern is processed. When all three are set
and a pattern is given, the first thing `main` does is create the output
file. -/
theorem main_usage (w : World) (f : Flags) (args : List GoString) :
    ((f.pkg = [] ∨ f.vn = [] ∨ f.outf = [] ∨ args = []) →
      main w f args = { events := [.usage], exit := .returned }) ∧
    ((f.pkg ≠ [] ∧ f.vn ≠ [] ∧ f.outf ≠ [] ∧ args ≠ []) →
      ∃ rest, (main w f args).events = Event.create f.outf :: rest ∧ Event.usage ∉ rest) := by
  constructor
  · intro h
    have h' : f.pkg = [] ∨ f.vn = [] ∨ f.outf = [] ∨ args.length = 0 := by
      rcases h with h | h | h | h
      · exact Or.inl h
      · exact Or.inr (Or.inl h)
      · exact Or.inr (Or.inr (Or.inl h))
      · exact Or.inr (Or.inr (Or.inr (by rw [h]; rfl)))
    unfold main
    rw [if_pos h']
  · rintro ⟨h1, h2, h3, h4⟩
    have hlen : ¬ args.length = 0 := fun h => h4 (List.length_eq_zero.mp h)
    unfold main
    rw [if_neg (by simp [h1, h2, h3, hlen])]
    simp only
    split
    · exact ⟨_, rfl, by simp⟩
    · split
      · exact ⟨_, rfl, by simp⟩
      · exact ⟨_, rfl, by simp⟩
      · split
        · exact ⟨_, rfl, by simp⟩
        · split
          · exact ⟨_, rfl, by simp⟩
          · exact ⟨_, rfl, by simp⟩

end Embed

namespace Embed

/-! ## embed.go: keys; pin.go: `Direction.Type` and `Map.UnmarshalJSON` -/

/-- C8: the key of an entry is the path of the file relative to the base
directory, as `filepath.Rel` gives it, with every separator of the platform
replaced by a slash; where the separator is not the slash, the key holds no
separator. -/
theorem processFile_key (w : World) (gzipit : Bool) (base m : GoString)
    (e : GoString × GoString) (h : processFile w gzipit base m = .ok (some e)) :
    ∃ r, w.Rel base m = some r ∧
      e.1 = r.map (fun c => if c = w.Separator then 0x2f else c) ∧
      (w.Separator ≠ 0x2f → w.Separator ∉ e.1) := by
  have hts : ∀ r : GoString, ToSlash w.Separator r =
      r.map (fun c => if c = w.Separator then 0x2f else c) := by
    intro r
    unfold ToSlash
    split
    · rename_i hs
      rw [hs]
      induction r with
      | nil => rfl
      | cons a l ih =>
        rw [List.map_cons, ← ih]
        by_cases ha : a = 0x2f
        · rw [if_pos ha, ha]
        · rw [if_neg ha]
    · rfl
  have hno : ∀ r : GoString, w.Separator ≠ 0x2f →
      w.Separator ∉ r.map (fun c => if c = w.Separator then 0x2f else c) := by
    intro r hs hmem
    obtain ⟨c, _, hc⟩ := List.mem_map.mp hmem
    by_cases hcs : c = w.Separator
    · rw [if_pos hcs] at hc; exact hs hc.symm
    · rw [if_neg hcs] at hc; exact hcs hc
  unfold processFile at h
  cases hs : w.Stat m with
  | none => simp [hs] at h
  | some fi =>
    cases hd : fi.IsDir with
    | true => simp [hs, hd] at h
    | false =>
      cases hr : w.ReadFile m with
      | none => simp [hs, hd, hr] at h
      | some i =>
        cases hrel : w.Rel base m with
        | none => simp [hs, hd, hr, hrel] at h
        | some r =>
          refine ⟨r, rfl, ?_⟩
          have hk : e.1 = ToSlash w.Separator r := by
            cases hg : gzipit with
            | false =>
              simp [hs, hd, hr, hrel, hg] at h
              rw [← h]
            | true =>
              cases hz : gzipContent w.gz i (w.Base m) fi.ModTime with
              | panic => simp [hs, hd, hr, hrel, hg, hz] at h
              | ok i1 =>
                simp [hs, hd, hr, hrel, hg, hz] at h
                rw [← h]
          rw [hk, hts r]
          exact ⟨rfl, hno r⟩

/-- C8 on the example: base `/base`, file `/base/sub/dir/a.txt`, key
`sub/dir/a.txt`; and a relative path written with backslashes gets the same
key where the backslash is the separator. -/
theorem processFile_key_witness :
    (processFile exampleWorld false (lit "/base") (lit "/base/sub/dir/a.txt") =
      .ok (some (lit "sub/dir/a.txt", lit "/base/sub/dir/a.txt")) ∧
    ∃ r, exampleWorld.Rel (lit "/base") (lit "/base/sub/dir/a.txt") = some r ∧
      (lit "sub/dir/a.txt", lit "/base/sub/dir/a.txt").1 =
        r.map (fun c => if c = exampleWorld.Separator then 0x2f else c) ∧
      (exampleWorld.Separator ≠ 0x2f →
        exampleWorld.Separator ∉ (lit "sub/dir/a.txt", lit "/base/sub/dir/a.txt").1)) ∧
    ToSlash 0x5c (lit "sub\\dir\\a.txt") = lit "sub/dir/a.txt" :=
  ⟨⟨by decide, processFile_key exampleWorld false (lit "/base") (lit "/base/sub/dir/a.txt")
      (lit "sub/dir/a.txt", lit "/base/sub/dir/a.txt") (by decide)⟩, by decide⟩

end Embed

namespace Pin

/-- What `Type` returns on the two constants: `"<-chan"` for `Input` and
`"chan<-"` for `Output`. -/
theorem Type_of_constants :
    Direction.Type Input = lit "<-chan" ∧ Direction.Type Output = lit "chan<-" := by
  decide

/-- C9, at the failing input: for the zero value of `Direction`, the empty
string, the switch of `Type` matches no case and the function returns the
empty string, which is neither `"<-chan"` nor `"chan<-"`. -/
theorem Type_zero_value :
    Direction.Type (lit "") = lit "" ∧
    ¬ (Direction.Type (lit "") = lit "<-chan" ∨ Direction.Type (lit "") = lit "chan<-") := by
  decide

/-- The renaming loop on a map whose first nil pointer stands after `pre`. -/
theorem fillNames_at_nil (pre post : List (GoString × DefPtr)) (k : GoString)
    (hpre : ∀ kv ∈ pre, kv.2 ≠ none) :
    fillNames (pre ++ (k, none) :: post) =
      (pre.map (fun kv => (kv.1, kv.2.map (fun p => { p with Name := kv.1 }))) ++
        (k, none) :: post, false) := by
  induction pre with
  | nil => rfl
  | cons a l ih =>
    obtain ⟨n, p⟩ := a
    cases p with
    | none => exact absurd rfl (hpre (n, none) (List.mem_cons_self _ _))
    | some p =>
      simp [fillNames, ih (fun kv hkv => hpre kv (List.mem_cons_of_mem _ hkv))]

/-- A map with a nil pointer splits at its first one. -/
theorem first_nil (m0 : List (GoString × DefPtr)) (h : ∃ kv ∈ m0, kv.2 = none) :
    ∃ pre k post, m0 = pre ++ (k, none) :: post ∧ ∀ kv ∈ pre, kv.2 ≠ none := by
  induction m0 with
  | nil => obtain ⟨kv, hkv, _⟩ := h; cases hkv
  | cons a l ih =>
    obtain ⟨n, p⟩ := a
    cases p with
    | none => exact ⟨[], n, l, rfl, by simp⟩
    | some p =>
      have hl : ∃ kv ∈ l, kv.2 = none := by
        obtain ⟨kv, hkv, hn⟩ := h
        rcases List.mem_cons.mp hkv with rfl | hm
        · cases hn
        · exact ⟨kv, hm, hn⟩
      obtain ⟨pre, k, post, rfl, hpre⟩ := ih hl
      refine ⟨(n, some p) :: pre, k, post, rfl, ?_⟩
      intro kv hkv
      rcases List.mem_cons.mp hkv with rfl | hm
      · simp
      · exact hpre kv hm

theorem fillNames_ok (m0 : List (GoString × DefPtr)) (h : ∀ kv ∈ m0, kv.2 ≠ none) :
    fillNames m0 =
      (m0.map (fun kv => (kv.1, kv.2.map (fun p => { p with Name := kv.1 }))), true) := by
  induction m0 with
  | nil => rfl
  | cons a l ih =>
    obtain ⟨n, p⟩ := a
    cases p with
    | none => exact absurd rfl (h (n, none) (List.mem_cons_self _ _))
    | some p =>
      simp [fillNames, ih (fun kv hkv => h kv (List.mem_cons_of_mem _ hkv))]

/-- C10, at the failing inputs: when the decoded map holds a nil pointer (the
value `null` under some key), `UnmarshalJSON` panics in its renaming loop,
after `*m` has been assigned: `*m` is then the decoded map with the entries
visited before the first nil pointer renamed. -/
theorem UnmarshalJSON_null_panics {ε : Type} (unmarshal : GoString → Except ε Map)
    (b : GoString) (m : Map) (m0 : List (GoString × DefPtr))
    (hdec : unmarshal b = .ok (some m0)) (hnull : ∃ kv ∈ m0, kv.2 = none) :
    (Map.UnmarshalJSON unmarshal b m).ret = .panic ∧
    ∃ pre k post, m0 = pre ++ (k, none) :: post ∧ (∀ kv ∈ pre, kv.2 ≠ none) ∧
      (Map.UnmarshalJSON unmarshal b m).m =
        some (pre.map (fun kv => (kv.1, kv.2.map (fun p => { p with Name := kv.1 }))) ++
          (k, none) :: post) := by
  obtain ⟨pre, k, post, hm0, hpre⟩ := first_nil m0 hnull
  have hf := fillNames_at_nil pre post k hpre
  unfold Map.UnmarshalJSON
  rw [hdec, hm0]
  simp only [hf]
  exact ⟨by simp, pre, k, post, rfl, hpre, by simp⟩

/-- C10 on the input `{"a":null}`, which `json.Unmarshal` decodes to the map
with the key `a` and a nil pointer. -/
theorem UnmarshalJSON_null_panics_witness :
    ((fun _ => .ok (some [(lit "a", none)]) : GoString → Except Unit Map)
        (lit "\x7b\"a\":null\x7d") = .ok (some [(lit "a", none)]) ∧
      ∃ kv ∈ [(lit "a", (none : DefPtr))], kv.2 = none) ∧
    (Map.UnmarshalJSON (fun _ => .ok (some [(lit "a", none)]) : GoString → Except Unit Map)
        (lit "\x7b\"a\":null\x7d") none).ret = .panic ∧
    ∃ pre k post, [(lit "a", (none : DefPtr))] = pre ++ (k, none) :: post ∧
      (∀ kv ∈ pre, kv.2 ≠ none) ∧
      (Map.UnmarshalJSON (fun _ => .ok (some [(lit "a", none)]) : GoString → Except Unit Map)
        (lit "\x7b\"a\":null\x7d") none).m =
        some (pre.map (fun kv => (kv.1, kv.2.map (fun p => { p with Name := kv.1 }))) ++
          (k, none) :: post) :=
  ⟨⟨rfl, ⟨_, List.mem_cons_self _ _, rfl⟩⟩,
    UnmarshalJSON_null_panics (fun _ => .ok (some [(lit "a", none)])) (lit "\x7b\"a\":null\x7d") none
      [(lit "a", none)] rfl ⟨_, List.mem_cons_self _ _, rfl⟩⟩

/-- The part of C10 that holds: an input that the decoder rejects gives that
error and leaves `*m` as it was; the input `null` gives a nil map; and an
object without `null` values gives the decoded map with the `Name` of every
entry set to its key. -/
theorem UnmarshalJSON_backfills {ε : Type} (unmarshal : GoString → Except ε Map)
    (b : GoString) (m : Map) :
    (∀ err, unmarshal b = .error err →
      (Map.UnmarshalJSON unmarshal b m).ret = .ok (some err) ∧
      (Map.UnmarshalJSON unmarshal b m).m = m) ∧
    (unmarshal b = .ok none →
      (Map.UnmarshalJSON unmarshal b m).ret = .ok none ∧
      (Map.UnmarshalJSON unmarshal b m).m = none) ∧
    (∀ m0, unmarshal b = .ok (some m0) → (∀ kv ∈ m0, kv.2 ≠ none) →
      (Map.UnmarshalJSON unmarshal b m).ret = .ok none ∧
      (Map.UnmarshalJSON unmarshal b m).m =
        some (m0.map (fun kv => (kv.1, kv.2.map (fun p => { p with Name := kv.1 }))))) := by
  refine ⟨?_, ?_, ?_⟩
  · intro err h
    unfold Map.UnmarshalJSON
    rw [h]
    exact ⟨rfl, rfl⟩
  · intro h
    unfold Map.UnmarshalJSON
    rw [h]
    exact ⟨rfl, rfl⟩
  · intro m0 h hnn
    unfold Map.UnmarshalJSON
    rw [h]
    simp [fillNames_ok m0 hnn]

end Pin

namespace Embed

/-! ## embed.go: the order of the entries, on the example -/

/-- C4 on the example: the patterns `a/*.txt`, `b/*.txt`, `*/1.txt` under
`/base` give the entries of `a/1.txt`, `a/2.txt`, `b/1.txt` and then, a second
time, those of `a/1.txt` and `b/1.txt`. -/
theorem main_entries_in_order_witness :
    ((exampleFlags.gzipit = false ∨
        ∀ p s, exampleWorld.ReadFile p = some s → 2 ≤ s.cap) ∧
      (exampleFlags.pkg ≠ [] ∧ exampleFlags.vn ≠ [] ∧ exampleFlags.outf ≠ [] ∧
        [lit "a/*.txt", lit "b/*.txt", lit "*/1.txt"] ≠ []) ∧
      exampleWorld.Create exampleFlags.outf = true) ∧
    (processArgs exampleWorld exampleFlags.gzipit
        (FromSlash exampleWorld.Separator exampleFlags.base)
        [lit "a/*.txt", lit "b/*.txt", lit "*/1.txt"]).1 =
      ([lit "a/*.txt", lit "b/*.txt", lit "*/1.txt"].takeWhile (fun ifs =>
        (exampleWorld.Glob (exampleWorld.Join
          (FromSlash exampleWorld.Separator exampleFlags.base)
          (FromSlash exampleWorld.Separator ifs))).isSome)).flatMap
        (fun ifs =>
          ((exampleWorld.Glob (exampleWorld.Join
            (FromSlash exampleWorld.Separator exampleFlags.base)
            (FromSlash exampleWorld.Separator ifs))).getD []).filterMap
            (fun m => match processFile exampleWorld exampleFlags.gzipit
                (FromSlash exampleWorld.Separator exampleFlags.base) m with
              | .ok e => e
              | .panic => none)) ∧
    (processArgs exampleWorld exampleFlags.gzipit
        (FromSlash exampleWorld.Separator exampleFlags.base)
        [lit "a/*.txt", lit "b/*.txt", lit "*/1.txt"]).1.map Prod.fst =
      [lit "a/1.txt", lit "a/2.txt", lit "b/1.txt", lit "a/1.txt", lit "b/1.txt"] :=
  ⟨⟨Or.inl rfl, by decide, rfl⟩,
    (main_entries_in_order exampleWorld exampleFlags
      [lit "a/*.txt", lit "b/*.txt", lit "*/1.txt"] (Or.inl rfl) (by decide) rfl).1,
    by decide⟩

end Embed
